/-
Verification of the onetree forest-simplification library.

Shallow embedding conventions:
* Numeric leaf values, feature values and census weights are rationals
  (exact arithmetic standing in for Python floats; the spec's 1e-5
  tolerance becomes exact equality).
* Split bounds live in `XVal`, the rationals extended with the two
  infinities `float('inf')` / `-float('inf')` used by the source.
* Feature names (Python strings such as 'X_1') are natural numbers.
* Python exceptions are modelled with `Except` / `Option`:
  `calculate_value` returns `Except EvalErr ℚ` (KeyError on a missing
  feature, the trailing NotImplementedError when no split matches),
  `filter_by_split` returns `Option Node` (ValueError when no child
  split contains the filter split), and `simplify` returns
  `Option Node`.
* Python's unbounded recursion in `simplify` is rendered with explicit
  fuel (`simplify_fuel`); on well-formed forests the recursion depth is
  proved to be at most the number of Tree nodes, and `simplify` runs
  `simplify_fuel` with that much fuel.
-/
import Mathlib

namespace OneTree

/-- Values on a feature axis: a rational, or one of the two infinities
used as outer split bounds (`INF = float('inf')` in the source). -/
inductive XVal where
  | ninf
  | fin (q : ℚ)
  | pinf
deriving DecidableEq

/-- Order-embed `XVal` into `WithBot (WithTop ℚ)` to inherit its linear
order. -/
def XVal.toE : XVal → WithBot (WithTop ℚ)
  | .ninf => ⊥
  | .fin q => ((q : WithTop ℚ) : WithBot (WithTop ℚ))
  | .pinf => ((⊤ : WithTop ℚ) : WithBot (WithTop ℚ))

theorem XVal.toE_inj : Function.Injective XVal.toE := by
  intro a b h
  cases a <;> cases b <;> simp_all [toE]

instance : LinearOrder XVal := LinearOrder.lift' XVal.toE XVal.toE_inj

theorem XVal.le_def (a b : XVal) : a ≤ b ↔ a.toE ≤ b.toE := Iff.rfl

theorem XVal.lt_def (a b : XVal) : a < b ↔ a.toE < b.toE := Iff.rfl

@[simp] theorem XVal.ninf_le (a : XVal) : XVal.ninf ≤ a := by
  rw [XVal.le_def]; exact bot_le

@[simp] theorem XVal.le_pinf (a : XVal) : a ≤ XVal.pinf := by
  rw [XVal.le_def]; cases a <;> simp [XVal.toE]

@[simp] theorem XVal.fin_le_fin {a b : ℚ} : XVal.fin a ≤ XVal.fin b ↔ a ≤ b := by
  rw [XVal.le_def]; simp [XVal.toE]

@[simp] theorem XVal.fin_lt_fin {a b : ℚ} : XVal.fin a < XVal.fin b ↔ a < b := by
  rw [XVal.lt_def]; simp [XVal.toE]

@[simp] theorem XVal.ninf_lt_fin (a : ℚ) : XVal.ninf < XVal.fin a := by
  rw [XVal.lt_def]; simp [XVal.toE]

@[simp] theorem XVal.fin_lt_pinf (a : ℚ) : XVal.fin a < XVal.pinf := by
  rw [XVal.lt_def]
  simp only [XVal.toE, WithBot.coe_lt_coe]
  exact WithTop.coe_lt_top a

@[simp] theorem XVal.ninf_lt_pinf : XVal.ninf < XVal.pinf := by
  rw [XVal.lt_def]; simp [XVal.toE]

@[simp] theorem XVal.not_pinf_le_fin (a : ℚ) : ¬ (XVal.pinf ≤ XVal.fin a) := by
  rw [XVal.le_def]; simp [XVal.toE]

@[simp] theorem XVal.not_fin_le_ninf (a : ℚ) : ¬ (XVal.fin a ≤ XVal.ninf) := by
  rw [XVal.le_def]; simp [XVal.toE]

@[simp] theorem XVal.not_pinf_le_ninf : ¬ (XVal.pinf ≤ XVal.ninf) := by
  rw [XVal.le_def]; simp [XVal.toE]

@[simp] theorem XVal.le_ninf_iff (a : XVal) : a ≤ XVal.ninf ↔ a = XVal.ninf := by
  cases a <;> simp

@[simp] theorem XVal.pinf_le_iff (a : XVal) : XVal.pinf ≤ a ↔ a = XVal.pinf := by
  cases a <;> simp

/-- `Split = namedtuple('Split', 'feature min max')`. -/
structure Split where
  feature : ℕ
  min : XVal
  max : XVal
deriving DecidableEq

/-- The node variants `Leaf / Tree / Forest` of `onetree_common.py`,
as one closed recursive type. -/
inductive Node where
  | leaf (value : ℚ)
  | tree (feature : ℕ) (splits : List Split) (children : List Node)
  | forest (trees : List Node)

/-- Errors raised by `calculate_value`: `KeyError` when the visited
node's feature is absent from the assignment (the spec's
`MissingFeature`), and the trailing `NotImplementedError` reached when
no split of a visited Tree matches. -/
inductive EvalErr where
  | missingFeature (feature : ℕ)
  | unexpected
deriving DecidableEq

/-- A feature assignment: Python's `val_dict`. -/
abbrev Env := List (ℕ × ℚ)

/-- The split-scanning loop of `calculate_value`:
`for split, child in zip(node.splits, node.children): if split.min <
feature_val <= split.max: return ...` — first match wins. -/
def firstMatch (v : ℚ) : List Split → List Node → Option Node
  | s :: ss, c :: cs =>
    if s.min < XVal.fin v ∧ XVal.fin v ≤ s.max then some c
    else firstMatch v ss cs
  | _, _ => none

theorem firstMatch_mem {v : ℚ} :
    ∀ {ss : List Split} {cs : List Node} {c : Node},
      firstMatch v ss cs = some c → c ∈ cs := by
  intro ss
  induction ss with
  | nil => intro cs c h; simp [firstMatch] at h
  | cons s ss ih =>
    intro cs c h
    cases cs with
    | nil => simp [firstMatch] at h
    | cons c0 cs =>
      by_cases hm : s.min < XVal.fin v ∧ XVal.fin v ≤ s.max
      · simp [firstMatch, hm] at h; simp [h]
      · simp [firstMatch, hm] at h
        exact List.mem_cons_of_mem _ (ih h)

mutual
/-- `calculate_value(node, val_dict)` from `onetree_common.py`.
Forest averaging (`np.mean`) is sum divided by length; the source
would produce `nan` on an empty forest, which well-formedness rules
out. -/
def calculate_value : Node → Env → Except EvalErr ℚ
  | .leaf v, _ => .ok v
  | .tree f ss cs, env =>
    match env.lookup f with
    | none => .error (.missingFeature f)
    | some v => scanSplits v ss cs env
  | .forest ts, env => do
    let vs ← calcList ts env
    pure (vs.sum / (ts.length : ℚ))
termination_by n _ => (sizeOf n, 0)

/-- The split-scanning loop of `calculate_value` on a Tree:
`for split, child in zip(node.splits, node.children): if split.min <
feature_val <= split.max: return ...`; falling off the loop reaches
the trailing `raise NotImplementedError`. -/
def scanSplits (v : ℚ) : List Split → List Node → Env → Except EvalErr ℚ
  | s :: ss, c :: cs, env =>
    if s.min < XVal.fin v ∧ XVal.fin v ≤ s.max then calculate_value c env
    else scanSplits v ss cs env
  | _, _, _ => .error .unexpected
termination_by ss cs _ => (sizeOf cs, ss.length + 1)

/-- Evaluate every member of a forest, left to right, propagating the
first error (as Python's list comprehension does). -/
def calcList : List Node → Env → Except EvalErr (List ℚ)
  | [], _ => .ok []
  | t :: ts, env => do
    let v ← calculate_value t env
    let vs ← calcList ts env
    pure (v :: vs)
termination_by l _ => (sizeOf l, 0)
end

/-- The split-building loop of `make_tree`: starting from
`prev_high = -INF`, each cut point closes one `(prev, point]` split,
and a final `(prev, INF]` split is appended. -/
def mkSplits (var : ℕ) (prev : XVal) : List ℚ → List Split
  | [] => [⟨var, prev, XVal.pinf⟩]
  | p :: ps => ⟨var, prev, XVal.fin p⟩ :: mkSplits var (XVal.fin p) ps

/-- `make_tree(var, cutpoints, children)` from `onetree_common.py`.
Note the source performs no validation whatsoever. -/
def make_tree (var : ℕ) (cutpoints : List ℚ) (children : List Node) : Node :=
  Node.tree var (mkSplits var XVal.ninf cutpoints) children

/-- The value of a leaf; `none` models the `AttributeError` Python
raises when `.value` is read from a non-Leaf. -/
def leafValue : Node → Option ℚ
  | .leaf v => some v
  | _ => none

/-- The values of a list of leaves; `none` as soon as one member is
not a Leaf. -/
def leafValues : List Node → Option (List ℚ)
  | [] => some []
  | n :: ns => do
    let v ← leafValue n
    let vs ← leafValues ns
    pure (v :: vs)

/-- `collapse_leaf_forest(forest)` from `simplify_common.py`:
`Leaf(sum(leaf.value for leaf in forest.trees) / len(forest.trees))`.
`none` models the exceptions of the source: `AttributeError` when some
member is not a Leaf (or the argument is not a Forest), and
`ZeroDivisionError` on an empty forest. -/
def collapse_leaf_forest : Node → Option Node
  | .forest ts =>
    if ts.length = 0 then none
    else do
      let vs ← leafValues ts
      pure (Node.leaf (vs.sum / (ts.length : ℚ)))
  | _ => none

mutual
/-- Structural equality of nodes: Python's namedtuple `==`. -/
def nodeEq : Node → Node → Bool
  | .leaf a, .leaf b => a == b
  | .tree f ss cs, .tree g ts ds => f == g && ss == ts && nodeListEq cs ds
  | .forest ts, .forest us => nodeListEq ts us
  | _, _ => false
termination_by a _ => sizeOf a

def nodeListEq : List Node → List Node → Bool
  | [], [] => true
  | a :: as, b :: bs => nodeEq a b && nodeListEq as bs
  | _, _ => false
termination_by l _ => sizeOf l
end

/-- The bucketization of a candidate child: only Leaf values are
mapped through the bucketize function. -/
def mergeChild (f : ℚ → ℚ) : Node → Node
  | .leaf v => .leaf (f v)
  | c => c

theorem mergeChild_cases (f : ℚ → ℚ) (n : Node) :
    mergeChild f n = n ∨ ∃ v, mergeChild f n = .leaf v := by
  cases n with
  | leaf v => exact Or.inr ⟨f v, by rw [mergeChild]⟩
  | tree g ss cs => exact Or.inl (by simp [mergeChild])
  | forest ts => exact Or.inl (by simp [mergeChild])

/-- One iteration of the `merge_buckets` loop, with the retained lists
kept in reverse (so "the last retained entry" is the head).  `none`
models the `AssertionError` of
`assert ret_splits[-1].feature == split.feature`, raised when two
adjacent equal children would be merged across different features; an
accumulator already `none` stays `none` (the exception has ended the
loop). -/
def mergeStep (f : ℚ → ℚ) :
    Option (List Split × List Node) → Split × Node →
      Option (List Split × List Node)
  | none, _ => none
  | some (rs :: restS, rc :: restC), p =>
    let child := mergeChild f p.2
    if nodeEq rc child then
      if rs.feature = p.1.feature then
        some (⟨rs.feature, rs.min, p.1.max⟩ :: restS, rc :: restC)
      else none
    else some (p.1 :: rs :: restS, child :: rc :: restC)
  | some _, p => some ([p.1], [mergeChild f p.2])

/-- `merge_buckets(splits, children, bucketize_fn)` from
`simplify_common.py`. With no bucketize function the inputs are
returned unchanged; otherwise adjacent entries whose (bucketized)
children compare equal are merged by extending the previous split's
upper bound, asserting that the merged splits share one feature.
`none` models the `AssertionError` propagating out. -/
def merge_buckets (splits : List Split) (children : List Node)
    (bucketize : Option (ℚ → ℚ)) : Option (List Split × List Node) :=
  match bucketize with
  | none => some (splits, children)
  | some f =>
    match (splits.zip children).foldl (mergeStep f) (some ([], [])) with
    | none => none
    | some r => some (r.1.reverse, r.2.reverse)

mutual
/-- `get_weighted_splits(node, weight)` from
`simplify_greedy_runtime.py`: the weighted census of every split in
the structure. A Tree emits each of its own splits at the current
weight and recurses into each child at `weight / len(children)`; a
Forest recurses into every member at full weight. -/
def get_weighted_splits : Node → ℚ → List (ℚ × Split)
  | .leaf _, _ => []
  | .tree _ ss cs, w =>
    ss.map (fun s => (w, s)) ++ gwsList cs (w / (cs.length : ℚ))
  | .forest ts, w => gwsList ts w
termination_by n _ => sizeOf n

def gwsList : List Node → ℚ → List (ℚ × Split)
  | [], _ => []
  | n :: ns, w => get_weighted_splits n w ++ gwsList ns w
termination_by l _ => sizeOf l
end

/-- First-occurrence deduplication: the iteration order of a Python
dict whose keys are inserted while scanning the census. -/
def dedupFirst : List ℕ → List ℕ
  | [] => []
  | x :: xs => x :: dedupFirst (xs.filter (fun y => y ≠ x))
termination_by l => l.length
decreasing_by
  simp_wf
  exact Nat.lt_succ_of_le (List.length_filter_le _ _)

/-- `weights[feat]` of `find_best_split`: total census weight of the
splits on a feature. -/
def weightFor (ws : List (ℚ × Split)) (f : ℕ) : ℚ :=
  ((ws.filter (fun p => p.2.feature = f)).map (fun p => p.1)).sum

/-- All interval endpoints (`split.min` and `split.max`) recorded for a
feature by the census loop of `find_best_split`. -/
def endpointsFor (ws : List (ℚ × Split)) (f : ℕ) : List XVal :=
  (ws.filter (fun p => p.2.feature = f)).foldr
    (fun p acc => p.2.min :: p.2.max :: acc) []

/-- `len(cutpoints[feat])`: the number of distinct endpoints recorded
for a feature. -/
def numCuts (ws : List (ℚ × Split)) (f : ℕ) : ℕ :=
  (endpointsFor ws f).dedup.length

/-- Exact decision of
`log2 n1 - log2 n2 < d` for natural `n1, n2 ≥ 1` and rational `d`:
with `d = a/b` in lowest terms this is `n1^b < 2^a * n2^b` moved to
natural-number arithmetic.  This renders the floating-point comparison
of `saving` values (`weights[feat] - math.log(len(cutpoints[feat]), 2)`)
exactly. -/
def logDiffLt (n1 n2 : ℕ) (d : ℚ) : Bool :=
  let a := d.num
  let b := d.den
  if 0 ≤ a then decide (n1 ^ b < 2 ^ a.toNat * n2 ^ b)
  else decide (2 ^ (-a).toNat * n1 ^ b < n2 ^ b)

/-- Decides `saving(g) > saving(b)`, i.e.
`weights[g] - log2(numCuts g) > weights[b] - log2(numCuts b)`. -/
def savingGt (ws : List (ℚ × Split)) (g b : ℕ) : Bool :=
  logDiffLt (numCuts ws g) (numCuts ws b) (weightFor ws g - weightFor ws b)

/-- Python's `max(iterable, key=saving)`: scan left to right, replace
the current best exactly when the new key is strictly greater (ties
keep the earlier element). -/
def maxByKey (gt : ℕ → ℕ → Bool) : ℕ → List ℕ → ℕ
  | b, [] => b
  | b, f :: fs => maxByKey gt (if gt f b then f else b) fs

/-- `find_best_split(weighted_splits)` from
`simplify_greedy_runtime.py`: choose the feature with maximal saving
(first occurrence wins ties, matching dict iteration order), then pair
the sorted distinct endpoints of that feature into adjacent splits.
An empty census would raise `ValueError` from `max` in the source; the
`[]` result here is never used, since `simplify` only calls this with
a non-empty census. -/
def find_best_split (ws : List (ℚ × Split)) : List Split :=
  match dedupFirst (ws.map (fun p => p.2.feature)) with
  | [] => []
  | f0 :: fs =>
    let best := maxByKey (savingGt ws) f0 fs
    let sorted_cuts := List.insertionSort (fun a b => a ≤ b) (endpointsFor ws best).dedup
    (sorted_cuts.zip sorted_cuts.tail).map (fun p => ⟨best, p.1, p.2⟩)

/-- The child-finding loop of `filter_by_split` on a Tree whose
feature matches: the first child whose split interval contains the
filter split (`c_split.min <= split.min and c_split.max >= split.max`)
wins; `none` models the `ValueError` raised when no child matches. -/
def findContaining (s : Split) : List Split → List Node → Option Node
  | csp :: ss, c :: cs =>
    if csp.min ≤ s.min ∧ s.max ≤ csp.max then some c
    else findContaining s ss cs
  | _, _ => none

theorem findContaining_mem {s : Split} :
    ∀ {ss : List Split} {cs : List Node} {c : Node},
      findContaining s ss cs = some c → c ∈ cs := by
  intro ss
  induction ss with
  | nil => intro cs c h; simp [findContaining] at h
  | cons s0 ss ih =>
    intro cs c h
    cases cs with
    | nil => simp [findContaining] at h
    | cons c0 cs =>
      by_cases hm : s0.min ≤ s.min ∧ s.max ≤ s0.max
      · simp [findContaining, hm] at h; simp [h]
      · simp [findContaining, hm] at h
        exact List.mem_cons_of_mem _ (ih h)

mutual
/-- `filter_by_split(node, split)` from `simplify_greedy_runtime.py`:
strip out every branch inconsistent with `split`.  `none` models the
`ValueError` raised when a matching Tree has no child split containing
`split`. -/
def filter_by_split : Node → Split → Option Node
  | .leaf v, _ => some (.leaf v)
  | .tree f ss cs, s =>
    if f = s.feature then findContaining s ss cs
    else do
      let cs2 ← filterList cs s
      pure (Node.tree f ss cs2)
  | .forest ts, s => do
    let ts2 ← filterList ts s
    pure (Node.forest ts2)
termination_by n _ => sizeOf n

def filterList : List Node → Split → Option (List Node)
  | [], _ => some []
  | n :: ns, s => do
    let n2 ← filter_by_split n s
    let ns2 ← filterList ns s
    pure (n2 :: ns2)
termination_by l _ => sizeOf l
end

mutual
/-- The number of Tree constructors in a node; the measure that each
level of `simplify` strictly decreases. -/
def treeCount : Node → ℕ
  | .leaf _ => 0
  | .tree _ _ cs => 1 + treeCountList cs
  | .forest ts => treeCountList ts
termination_by n => sizeOf n

def treeCountList : List Node → ℕ
  | [] => 0
  | n :: ns => treeCount n + treeCountList ns
termination_by l => sizeOf l
end

mutual
/-- `simplify(forest, bucketize_fn)` from `simplify_greedy_runtime.py`,
with explicit fuel bounding the recursion depth (the source recurses
without a bound; on well-formed forests a depth of `treeCount + 1` is
proved sufficient).  The `depth` parameter of the source only controls
debug printing and is omitted.  `none` models the exceptions
propagating out of `collapse_leaf_forest` / `filter_by_split`, the
implicit `None` returned when everything merges away, and exhausted
fuel. -/
def simplify_fuel : ℕ → Node → Option (ℚ → ℚ) → Option Node
  | 0, _, _ => none
  | fuel + 1, forest, bucketize =>
    let ws := get_weighted_splits forest 1
    if ws.isEmpty then collapse_leaf_forest forest
    else
      let splits := find_best_split ws
      match simplifyChildren fuel forest bucketize splits with
      | none => none
      | some children =>
        match merge_buckets splits children bucketize with
        | some (s1 :: s2 :: srest, cs) =>
          some (Node.tree s1.feature (s1 :: s2 :: srest) cs)
        | some ([_], c1 :: _) => some c1
        | _ => none
termination_by fuel _ _ => (fuel, 0)

/-- The recursive list comprehension of `simplify`:
`[simplify(filter_by_split(forest, split), ...) for split in splits]`,
propagating any exception. -/
def simplifyChildren : ℕ → Node → Option (ℚ → ℚ) → List Split → Option (List Node)
  | _, _, _, [] => some []
  | fuel, forest, bucketize, s :: ss => do
    let f2 ← filter_by_split forest s
    let c ← simplify_fuel fuel f2 bucketize
    let cs ← simplifyChildren fuel forest bucketize ss
    pure (c :: cs)
termination_by fuel _ _ ss => (fuel, ss.length + 1)
end

/-- `simplify(forest, bucketize_fn=None)`: the entry point, run with
enough fuel for any well-formed forest. -/
def simplify (forest : Node) (bucketize : Option (ℚ → ℚ) := none) : Option Node :=
  simplify_fuel (treeCount forest + 1) forest bucketize

/-! ## Well-formedness -/

/-- `chainFrom f lo ss`: the splits `ss` all carry feature `f` and
form a sorted, contiguous, total chain of non-empty intervals starting
at `lo` and ending at `+infinity` (the §3 Tree invariant, relative to
a starting bound). -/
def chainFrom (f : ℕ) (lo : XVal) : List Split → Bool
  | [] => false
  | s :: rest =>
    s.feature == f && s.min == lo && decide (lo < s.max) &&
      (match rest with
       | [] => s.max == XVal.pinf
       | _ :: _ => chainFrom f s.max rest)

mutual
/-- Well-formed tree-or-leaf node: every Tree splits on one feature
with a total contiguous chain, and has as many children as splits
(hence at least one); Forests do not occur below the top level. -/
def WFT : Node → Bool
  | .leaf _ => true
  | .tree f ss cs => chainFrom f XVal.ninf ss && ss.length == cs.length && WFTList cs
  | .forest _ => false
termination_by n => sizeOf n

def WFTList : List Node → Bool
  | [] => true
  | n :: ns => WFT n && WFTList ns
termination_by l => sizeOf l
end

/-- Well-formed forest: a non-empty list of well-formed trees or
leaves. -/
def WF : Node → Bool
  | .forest ts => !ts.isEmpty && WFTList ts
  | _ => false

mutual
/-- The features of every Tree node occurring in a node. -/
def nodeFeatures : Node → List ℕ
  | .leaf _ => []
  | .tree f _ cs => f :: nodeFeaturesList cs
  | .forest ts => nodeFeaturesList ts
termination_by n => sizeOf n

def nodeFeaturesList : List Node → List ℕ
  | [] => []
  | n :: ns => nodeFeatures n ++ nodeFeaturesList ns
termination_by l => sizeOf l
end

/-- `covers env n`: the assignment supplies a value for every feature
occurring anywhere in `n`. -/
def covers (env : Env) (n : Node) : Bool :=
  (nodeFeatures n).all (fun f => (env.lookup f).isSome)

mutual
/-- Every split of every Tree node occurring in a node, in census
order. -/
def allSplits : Node → List Split
  | .leaf _ => []
  | .tree _ ss cs => ss ++ allSplitsList cs
  | .forest ts => allSplitsList ts
termination_by n => sizeOf n

def allSplitsList : List Node → List Split
  | [] => []
  | n :: ns => allSplits n ++ allSplitsList ns
termination_by l => sizeOf l
end

/-- The interval endpoints of a list of splits. -/
def splitBounds (ss : List Split) : List XVal :=
  ss.foldr (fun s acc => s.min :: s.max :: acc) []

/-- All interval endpoints on feature `f` occurring in `n` (the
"boundaries" that a refining split may not straddle). -/
def boundariesOn (f : ℕ) (n : Node) : List XVal :=
  splitBounds ((allSplits n).filter (fun s => s.feature = f))

/-- `noStraddle s n`: no boundary on `s.feature` occurring in `n` lies
strictly inside the interval of `s` — the sense in which `s` refines
every boundary of its feature. -/
def noStraddle (s : Split) (n : Node) : Bool :=
  (boundariesOn s.feature n).all (fun e => e ≤ s.min || s.max ≤ e)

/-- Partial chain: contiguous feature-`f` splits from `lo` ending
exactly at `hi`. -/
def chainSeg (f : ℕ) : XVal → XVal → List Split → Bool
  | lo, hi, [] => lo == hi
  | lo, hi, s :: rest =>
    s.feature == f && s.min == lo && decide (lo < s.max) &&
      chainSeg f s.max hi rest

/-! ## Concrete structures

Small concrete forests, used to exercise the definitions on actual
inputs. -/

/-- A seven-way tree on feature 2. -/
def T2x : Node :=
  make_tree 2 [1, 2, 3, 4, 5, 6]
    [.leaf 1, .leaf 2, .leaf 3, .leaf 4, .leaf 5, .leaf 6, .leaf 7]

/-- A single tree splitting on feature 1 at 0, carrying the feature-2
subtree `T2x` on its upper branch. -/
def tsC1 : List Node := [make_tree 1 [0] [.leaf 0, T2x]]

/-- The one-tree forest over `tsC1`. -/
def FC1 : Node := .forest tsC1

/-- An assignment for feature 1 only: the path it selects in `FC1`
never reaches `T2x`, so feature 2 is not needed to evaluate `FC1`. -/
def envC1 : Env := [(1, -1)]

/-- The census of `FC1` at weight 1, written out: the two root splits
at weight 1, and the seven `T2x` splits at weight `1/2`. -/
def wsC1 : List (ℚ × Split) :=
  [(1, ⟨1, .ninf, .fin 0⟩), (1, ⟨1, .fin 0, .pinf⟩),
   (1/2, ⟨2, .ninf, .fin 1⟩), (1/2, ⟨2, .fin 1, .fin 2⟩),
   (1/2, ⟨2, .fin 2, .fin 3⟩), (1/2, ⟨2, .fin 3, .fin 4⟩),
   (1/2, ⟨2, .fin 4, .fin 5⟩), (1/2, ⟨2, .fin 5, .fin 6⟩),
   (1/2, ⟨2, .fin 6, .pinf⟩)]

/-- The distinct endpoints on feature 2 of the census of `FC1`. -/
def cutsC1 : List XVal :=
  [.ninf, .fin 1, .fin 2, .fin 3, .fin 4, .fin 5, .fin 6, .pinf]

/-- The splits of `T2x`: the output of `find_best_split` on the census
of `FC1`. -/
def splitsC1 : List Split :=
  [⟨2, .ninf, .fin 1⟩, ⟨2, .fin 1, .fin 2⟩, ⟨2, .fin 2, .fin 3⟩,
   ⟨2, .fin 3, .fin 4⟩, ⟨2, .fin 4, .fin 5⟩, ⟨2, .fin 5, .fin 6⟩,
   ⟨2, .fin 6, .pinf⟩]

/-! ## A forest with nested splits on one feature -/

/-- A tree on feature 1, nested below another split on feature 1. -/
def TN : Node := make_tree 1 [-1] [.leaf 1, .leaf 2]

/-- A single tree splitting on feature 1 at 0 whose lower branch again
splits on feature 1 (at -1): legal for `make_tree`, well-formed, and a
witness that filtering does not eliminate the hoisted feature. -/
def tsN : List Node := [make_tree 1 [0] [TN, .leaf 3]]

/-- The one-tree forest over `tsN`. -/
def FN : Node := .forest tsN

/-- The census of `FN` at weight 1. -/
def wsN : List (ℚ × Split) :=
  [(1, ⟨1, .ninf, .fin 0⟩), (1, ⟨1, .fin 0, .pinf⟩),
   (1/2, ⟨1, .ninf, .fin (-1)⟩), (1/2, ⟨1, .fin (-1), .pinf⟩)]

/-- The splits `find_best_split` produces from the census of `FN`. -/
def splitsN : List Split :=
  [⟨1, .ninf, .fin (-1)⟩, ⟨1, .fin (-1), .fin 0⟩, ⟨1, .fin 0, .pinf⟩]

/-- The census of the sub-forest obtained by filtering `FN` with the
first best split: feature 1 is still present. -/
def wsI : List (ℚ × Split) :=
  [(1, ⟨1, .ninf, .fin (-1)⟩), (1, ⟨1, .fin (-1), .pinf⟩)]

/-! ## Basic structural lemmas -/

mutual
theorem gws_snd (n : Node) (w : ℚ) :
    (get_weighted_splits n w).map (fun p => p.2) = allSplits n := by
  cases n with
  | leaf v => simp [get_weighted_splits, allSplits]
  | tree f ss cs =>
    simp [get_weighted_splits, allSplits, gwsList_snd cs]
  | forest ts => simp [get_weighted_splits, allSplits, gwsList_snd ts]
termination_by sizeOf n

theorem gwsList_snd (l : List Node) (w : ℚ) :
    (gwsList l w).map (fun p => p.2) = allSplitsList l := by
  cases l with
  | nil => simp [gwsList, allSplitsList]
  | cons n ns => simp [gwsList, allSplitsList, gws_snd n, gwsList_snd ns]
termination_by sizeOf l
end

theorem WFTList_mem {l : List Node} (h : WFTList l = true) {n : Node}
    (hm : n ∈ l) : WFT n = true := by
  induction l with
  | nil => simp at hm
  | cons a as ih =>
    rw [WFTList] at h
    simp only [Bool.and_eq_true] at h
    rcases List.mem_cons.mp hm with rfl | hm
    · exact h.1
    · exact ih h.2 hm

/-! ## Chain lemmas -/

theorem chainFrom_cons {f : ℕ} {lo : XVal} {s : Split} {rest : List Split}
    (h : chainFrom f lo (s :: rest) = true) :
    s.feature = f ∧ s.min = lo ∧ lo < s.max ∧
      (rest = [] → s.max = XVal.pinf) ∧
      (rest ≠ [] → chainFrom f s.max rest = true) := by
  cases rest with
  | nil =>
    simp only [chainFrom, Bool.and_eq_true, beq_iff_eq, decide_eq_true_eq] at h
    obtain ⟨⟨⟨h1, h2⟩, h3⟩, h4⟩ := h
    exact ⟨h1, h2, h3, fun _ => h4, fun hne => absurd rfl hne⟩
  | cons r rs =>
    simp only [chainFrom, Bool.and_eq_true, beq_iff_eq, decide_eq_true_eq] at h
    obtain ⟨⟨⟨h1, h2⟩, h3⟩, h4⟩ := h
    refine ⟨h1, h2, h3, fun hh => by simp at hh, fun _ => ?_⟩
    show chainFrom f s.max (r :: rs) = true
    simp only [chainFrom, Bool.and_eq_true, beq_iff_eq, decide_eq_true_eq]
    exact h4

theorem chainFrom_features {f : ℕ} :
    ∀ {lo : XVal} {ss : List Split}, chainFrom f lo ss = true →
      ∀ s ∈ ss, s.feature = f := by
  intro lo ss
  induction ss generalizing lo with
  | nil => intro h; simp [chainFrom] at h
  | cons s rest ih =>
    intro h t ht
    have hc := chainFrom_cons h
    rcases List.mem_cons.mp ht with rfl | ht
    · exact hc.1
    · cases rest with
      | nil => simp at ht
      | cons r rs => exact ih (hc.2.2.2.2 (by simp)) t ht

theorem mem_splitBounds {e : XVal} :
    ∀ {ss : List Split}, e ∈ splitBounds ss ↔ ∃ s ∈ ss, e = s.min ∨ e = s.max := by
  intro ss
  induction ss with
  | nil => simp [splitBounds]
  | cons s rest ih =>
    simp only [splitBounds, List.foldr] at ih ⊢
    constructor
    · intro h
      rcases List.mem_cons.mp h with rfl | h
      · exact ⟨s, by simp⟩
      rcases List.mem_cons.mp h with rfl | h
      · exact ⟨s, by simp⟩
      · rcases ih.mp h with ⟨t, ht, he⟩
        exact ⟨t, List.mem_cons_of_mem _ ht, he⟩
    · rintro ⟨t, ht, he⟩
      rcases List.mem_cons.mp ht with rfl | ht
      · rcases he with rfl | rfl <;> simp
      · have := ih.mpr ⟨t, ht, he⟩
        simp [this]

/-- The core scan agreement lemma: on a total contiguous chain whose
endpoints never lie strictly inside the interval of `s`, the
containment scan of `filter_by_split` finds a child, and for every
value in the interval of `s`, the value scan of `calculate_value`
selects that same child. -/
theorem chain_scan {s : Split} (hmm : s.min < s.max) :
    ∀ (lo : XVal) (ss : List Split) (cs : List Node) {f : ℕ},
      chainFrom f lo ss = true → ss.length = cs.length → lo ≤ s.min →
      (∀ e ∈ splitBounds ss, e ≤ s.min ∨ s.max ≤ e) →
      ∃ c, findContaining s ss cs = some c ∧ c ∈ cs ∧
           ∀ v : ℚ, s.min < XVal.fin v → XVal.fin v ≤ s.max →
             firstMatch v ss cs = some c := by
  intro lo ss
  induction ss generalizing lo with
  | nil => intro cs f hch; simp [chainFrom] at hch
  | cons s0 rest ih =>
    intro cs f hch hlen hlo hbd
    cases cs with
    | nil => simp at hlen
    | cons c0 cs =>
      have hc := chainFrom_cons hch
      by_cases hmax : s.max ≤ s0.max
      · refine ⟨c0, ?_, by simp, ?_⟩
        · rw [findContaining]
          have : s0.min ≤ s.min := hc.2.1 ▸ hlo
          simp [this, hmax]
        · intro v hv1 hv2
          rw [firstMatch]
          have h1 : s0.min < XVal.fin v := lt_of_le_of_lt (hc.2.1 ▸ hlo) hv1
          have h2 : XVal.fin v ≤ s0.max := le_trans hv2 hmax
          simp [h1, h2]
      · push_neg at hmax
        have hbd0 : s0.max ≤ s.min ∨ s.max ≤ s0.max := by
          apply hbd
          rw [mem_splitBounds]
          exact ⟨s0, by simp⟩
        have hle : s0.max ≤ s.min := by
          rcases hbd0 with h | h
          · exact h
          · exact absurd h (not_le.mpr hmax)
        cases rest with
        | nil =>
          exfalso
          have hpinf : s0.max = XVal.pinf := hc.2.2.2.1 rfl
          rw [hpinf] at hle
          have h2 : s.min = XVal.pinf := by simpa using hle
          rw [h2] at hmm
          exact absurd hmm (not_lt.mpr (XVal.le_pinf s.max))
        | cons r rs =>
          have hch2 : chainFrom f s0.max (r :: rs) = true := hc.2.2.2.2 (by simp)
          have hbd2 : ∀ e ∈ splitBounds (r :: rs), e ≤ s.min ∨ s.max ≤ e := by
            intro e he
            apply hbd
            rw [mem_splitBounds] at he ⊢
            rcases he with ⟨t, ht, hor⟩
            exact ⟨t, List.mem_cons_of_mem _ ht, hor⟩
          rcases ih s0.max cs hch2 (by simpa using hlen) hle hbd2 with
            ⟨c, hfc, hcm, hfm⟩
          refine ⟨c, ?_, List.mem_cons_of_mem _ hcm, ?_⟩
          · rw [findContaining]
            have : ¬ (s0.min ≤ s.min ∧ s.max ≤ s0.max) := by
              rintro ⟨-, h2⟩; exact absurd h2 (not_le.mpr hmax)
            simp only [this, if_false]
            exact hfc
          · intro v hv1 hv2
            rw [firstMatch]
            have : ¬ (s0.min < XVal.fin v ∧ XVal.fin v ≤ s0.max) := by
              rintro ⟨-, h2⟩
              exact absurd (le_trans h2 hle) (not_le.mpr hv1)
            simp only [this, if_false]
            exact hfm v hv1 hv2

/-- On a total chain, any rational value above the starting bound is
matched by some split of the chain. -/
theorem chain_match {v : ℚ} :
    ∀ (lo : XVal) (ss : List Split) (cs : List Node) {f : ℕ},
      chainFrom f lo ss = true → ss.length = cs.length → lo < XVal.fin v →
      ∃ c, firstMatch v ss cs = some c ∧ c ∈ cs := by
  intro lo ss
  induction ss generalizing lo with
  | nil => intro cs f hch; simp [chainFrom] at hch
  | cons s0 rest ih =>
    intro cs f hch hlen hlo
    cases cs with
    | nil => simp at hlen
    | cons c0 cs =>
      have hc := chainFrom_cons hch
      by_cases hv : XVal.fin v ≤ s0.max
      · refine ⟨c0, ?_, by simp⟩
        rw [firstMatch]
        have h1 : s0.min < XVal.fin v := hc.2.1 ▸ hlo
        simp [h1, hv]
      · push_neg at hv
        cases rest with
        | nil =>
          exfalso
          have hpinf : s0.max = XVal.pinf := hc.2.2.2.1 rfl
          rw [hpinf] at hv
          exact absurd (XVal.le_pinf (XVal.fin v)) (not_le.mpr hv)
        | cons r rs =>
          have hch2 : chainFrom f s0.max (r :: rs) = true := hc.2.2.2.2 (by simp)
          rcases ih s0.max cs hch2 (by simpa using hlen) hv with ⟨c, hfm, hcm⟩
          refine ⟨c, ?_, List.mem_cons_of_mem _ hcm⟩
          rw [firstMatch]
          have : ¬ (s0.min < XVal.fin v ∧ XVal.fin v ≤ s0.max) := by
            rintro ⟨-, h2⟩; exact absurd h2 (not_le.mpr hv)
          simp only [this, if_false]
          exact hfm

/-- All tail splits of a chain start at or above the chain's starting
bound. -/
theorem chain_mins {f : ℕ} :
    ∀ {lo : XVal} {ss : List Split}, chainFrom f lo ss = true →
      ∀ t ∈ ss, lo ≤ t.min := by
  intro lo ss
  induction ss generalizing lo with
  | nil => intro h; simp [chainFrom] at h
  | cons s rest ih =>
    intro h t ht
    have hc := chainFrom_cons h
    rcases List.mem_cons.mp ht with rfl | ht
    · exact le_of_eq hc.2.1.symm
    · cases rest with
      | nil => simp at ht
      | cons r rs =>
        have := ih (hc.2.2.2.2 (by simp)) t ht
        exact le_trans (le_of_lt (hc.2.1 ▸ hc.2.2.1)) this

/-- On a chain, at most one split's interval contains a non-degenerate
interval `(s.min, s.max]`. -/
theorem chain_contains_unique {s : Split} (hmm : s.min < s.max) {f : ℕ} :
    ∀ {lo : XVal} {ss : List Split}, chainFrom f lo ss = true →
      ∀ p ∈ ss, ∀ q ∈ ss,
        (p.min ≤ s.min ∧ s.max ≤ p.max) → (q.min ≤ s.min ∧ s.max ≤ q.max) →
        p = q := by
  intro lo ss
  induction ss generalizing lo with
  | nil => intro h; simp [chainFrom] at h
  | cons s0 rest ih =>
    intro h p hp q hq hpc hqc
    have hc := chainFrom_cons h
    have head_tail : ∀ t ∈ rest, (s0.min ≤ s.min ∧ s.max ≤ s0.max) →
        (t.min ≤ s.min ∧ s.max ≤ t.max) → False := by
      intro t ht h0 htc
      cases rest with
      | nil => simp at ht
      | cons r rs =>
        have hch2 := hc.2.2.2.2 (by simp)
        have hts : s0.max ≤ t.min := chain_mins hch2 t ht
        have : s.max ≤ s.min := le_trans (le_trans h0.2 hts) htc.1
        exact absurd hmm (not_lt.mpr this)
    rcases List.mem_cons.mp hp with hp0 | hp
    · rcases List.mem_cons.mp hq with hq0 | hq
      · rw [hp0, hq0]
      · exact ((head_tail q hq (hp0 ▸ hpc) hqc).elim)
    · rcases List.mem_cons.mp hq with hq0 | hq
      · exact ((head_tail p hp (hq0 ▸ hqc) hpc).elim)
      · cases rest with
        | nil => simp at hp
        | cons r rs => exact ih (hc.2.2.2.2 (by simp)) p hp q hq hpc hqc

/-- Characterization of boundary membership. -/
theorem mem_boundariesOn {e : XVal} {f : ℕ} {n : Node} :
    e ∈ boundariesOn f n ↔
      ∃ sp, sp ∈ allSplits n ∧ sp.feature = f ∧ (e = sp.min ∨ e = sp.max) := by
  rw [boundariesOn, mem_splitBounds]
  constructor
  · rintro ⟨sp, hsp, he⟩
    rw [List.mem_filter] at hsp
    exact ⟨sp, hsp.1, by simpa using hsp.2, he⟩
  · rintro ⟨sp, hsp, hf, he⟩
    exact ⟨sp, List.mem_filter.mpr ⟨hsp, by simpa using hf⟩, he⟩

theorem allSplitsList_sub {n : Node} {l : List Node} (hm : n ∈ l) :
    ∀ {sp : Split}, sp ∈ allSplits n → sp ∈ allSplitsList l := by
  intro sp hsp
  induction l with
  | nil => simp at hm
  | cons a as ih =>
    rw [allSplitsList]
    rcases List.mem_cons.mp hm with rfl | hm2
    · exact List.mem_append_left _ hsp
    · exact List.mem_append_right _ (ih hm2)

theorem noStraddle_tree_child {s : Split} {f : ℕ} {ss : List Split}
    {cs : List Node} (h : noStraddle s (.tree f ss cs) = true) {c : Node}
    (hm : c ∈ cs) : noStraddle s c = true := by
  rw [noStraddle, List.all_eq_true] at h ⊢
  intro e he
  apply h
  rw [mem_boundariesOn] at he ⊢
  rcases he with ⟨sp, hsp, hf, hor⟩
  exact ⟨sp, by rw [allSplits]; exact List.mem_append_right _ (allSplitsList_sub hm hsp),
    hf, hor⟩

theorem noStraddle_forest_member {s : Split} {ts : List Node}
    (h : noStraddle s (.forest ts) = true) {c : Node}
    (hm : c ∈ ts) : noStraddle s c = true := by
  rw [noStraddle, List.all_eq_true] at h ⊢
  intro e he
  apply h
  rw [mem_boundariesOn] at he ⊢
  rcases he with ⟨sp, hsp, hf, hor⟩
  exact ⟨sp, by rw [allSplits]; exact allSplitsList_sub hm hsp, hf, hor⟩

theorem noStraddle_tree_bounds {s : Split} {f : ℕ} {ss : List Split}
    {cs : List Node}
    (h : noStraddle s (.tree f ss cs) = true)
    (hfeat : ∀ t ∈ ss, t.feature = s.feature) :
    ∀ e ∈ splitBounds ss, e ≤ s.min ∨ s.max ≤ e := by
  intro e he
  rw [noStraddle, List.all_eq_true] at h
  have := h e ?_
  · simpa using this
  · rw [mem_boundariesOn]
    rw [mem_splitBounds] at he
    rcases he with ⟨t, ht, hor⟩
    exact ⟨t, by rw [allSplits]; exact List.mem_append_left _ ht, hfeat t ht,
      hor⟩

theorem treeCount_mem_le {c : Node} {l : List Node} (hm : c ∈ l) :
    treeCount c ≤ treeCountList l := by
  induction l with
  | nil => simp at hm
  | cons a as ih =>
    rw [treeCountList]
    rcases List.mem_cons.mp hm with rfl | hm2
    · omega
    · have := ih hm2; omega

theorem mem_nodeFeaturesList {g : ℕ} {l : List Node} :
    g ∈ nodeFeaturesList l ↔ ∃ n ∈ l, g ∈ nodeFeatures n := by
  induction l with
  | nil => simp [nodeFeaturesList]
  | cons a as ih =>
    rw [nodeFeaturesList]
    simp only [List.mem_append, ih]
    constructor
    · rintro (h | ⟨n, hn, hg⟩)
      · exact ⟨a, by simp, h⟩
      · exact ⟨n, List.mem_cons_of_mem _ hn, hg⟩
    · rintro ⟨n, hn, hg⟩
      rcases List.mem_cons.mp hn with rfl | hn
      · exact Or.inl hg
      · exact Or.inr ⟨n, hn, hg⟩

/-- `scanSplits` is the evaluation of the child selected by
`firstMatch`. -/
theorem scanSplits_eq (v : ℚ) (env : Env) :
    ∀ (ss : List Split) (cs : List Node),
      scanSplits v ss cs env =
        match firstMatch v ss cs with
        | some c => calculate_value c env
        | none => .error .unexpected := by
  intro ss
  induction ss with
  | nil => intro cs; cases cs <;> simp [scanSplits, firstMatch]
  | cons s rest ih =>
    intro cs
    cases cs with
    | nil => simp [scanSplits, firstMatch]
    | cons c cs =>
      by_cases hm : s.min < XVal.fin v ∧ XVal.fin v ≤ s.max
      · rw [scanSplits, firstMatch]; simp [hm]
      · rw [scanSplits, firstMatch]; simp only [hm, if_false]; exact ih cs

/-! ## Filter lemmas -/

theorem except_bind_ok {α β : Type} {ε : Type} {x : Except ε α}
    {f : α → Except ε β} {r : β} (h : (x >>= f) = .ok r) :
    ∃ a, x = .ok a ∧ f a = .ok r := by
  cases x with
  | ok a =>
    refine ⟨a, rfl, ?_⟩
    simpa [Bind.bind, Except.bind] using h
  | error e => simp [Bind.bind, Except.bind] at h

theorem filterList_length {s : Split} :
    ∀ {l l2 : List Node}, filterList l s = some l2 → l2.length = l.length := by
  intro l
  induction l with
  | nil =>
    intro l2 h
    rw [filterList] at h
    simp only [Option.some.injEq] at h
    simp [← h]
  | cons n ns ih =>
    intro l2 h
    rw [filterList] at h
    simp only [Option.bind_eq_bind, Option.bind_eq_some, Option.pure_def,
      Option.some.injEq] at h
    rcases h with ⟨a, _, b, hb, rfl⟩
    simp [ih hb]

mutual
theorem filter_ok (s : Split) (hmm : s.min < s.max) (n : Node)
    (hwf : WFT n = true) (hns : noStraddle s n = true) :
    ∃ m, filter_by_split n s = some m ∧ WFT m = true := by
  cases n with
  | leaf v => exact ⟨.leaf v, by rw [filter_by_split], by rw [WFT]⟩
  | tree f ss cs =>
    rw [WFT] at hwf
    simp only [Bool.and_eq_true, beq_iff_eq] at hwf
    obtain ⟨⟨hch, hlen⟩, hwfl⟩ := hwf
    by_cases hf : f = s.feature
    · have hfeat : ∀ t ∈ ss, t.feature = s.feature := fun t ht =>
        hf ▸ chainFrom_features hch t ht
      have hbd := noStraddle_tree_bounds hns hfeat
      obtain ⟨c, hfc, hcm, -⟩ :=
        chain_scan hmm XVal.ninf ss cs hch (by simpa using hlen)
          (by simp) hbd
      refine ⟨c, ?_, WFTList_mem hwfl hcm⟩
      rw [filter_by_split]
      simp [hf, hfc]
    · obtain ⟨l2, hfl, hwfl2, hlen2⟩ :=
        filterList_ok s hmm cs hwfl
          (fun c hc => noStraddle_tree_child hns hc)
      refine ⟨.tree f ss l2, ?_, ?_⟩
      · rw [filter_by_split]
        simp [hf, hfl]
      · rw [WFT]
        simp only [Bool.and_eq_true, beq_iff_eq]
        exact ⟨⟨hch, by omega⟩, hwfl2⟩
  | forest ts => simp [WFT] at hwf
termination_by (sizeOf n, 0)

theorem filterList_ok (s : Split) (hmm : s.min < s.max) (l : List Node)
    (hwf : WFTList l = true) (hns : ∀ n ∈ l, noStraddle s n = true) :
    ∃ l2, filterList l s = some l2 ∧ WFTList l2 = true ∧
      l2.length = l.length := by
  cases l with
  | nil => exact ⟨[], by rw [filterList], by rw [WFTList], rfl⟩
  | cons n ns =>
    rw [WFTList] at hwf
    simp only [Bool.and_eq_true] at hwf
    obtain ⟨m, hm, hwm⟩ := filter_ok s hmm n hwf.1 (hns n (by simp))
    obtain ⟨l2, hl2, hwl2, hlen⟩ := filterList_ok s hmm ns hwf.2
      (fun c hc => hns c (List.mem_cons_of_mem _ hc))
    refine ⟨m :: l2, ?_, ?_, by simp [hlen]⟩
    · rw [filterList]
      simp [hm, hl2]
    · rw [WFTList]
      simp [hwm, hwl2]
termination_by (sizeOf l, 1)
end

/-- Filtering a well-formed forest by a non-degenerate non-straddling
split succeeds and yields a well-formed forest of the same member
count. -/
theorem filter_WF (s : Split) (hmm : s.min < s.max) (ts : List Node)
    (hwf : WF (.forest ts) = true) (hns : noStraddle s (.forest ts) = true) :
    ∃ ts2, filter_by_split (.forest ts) s = some (.forest ts2) ∧
      WF (.forest ts2) = true ∧ ts2.length = ts.length := by
  rw [WF] at hwf
  simp only [Bool.and_eq_true, Bool.not_eq_eq_eq_not, Bool.not_true,
    List.isEmpty_eq_false] at hwf
  obtain ⟨l2, hl2, hwl2, hlen⟩ := filterList_ok s hmm ts hwf.2
    (fun c hc => noStraddle_forest_member hns hc)
  refine ⟨l2, ?_, ?_, hlen⟩
  · rw [filter_by_split]
    simp [hl2]
  · rw [WF]
    simp only [Bool.and_eq_true, Bool.not_eq_eq_eq_not, Bool.not_true,
      List.isEmpty_eq_false, hwl2, and_true]
    intro hnil
    rw [hnil] at hlen
    exact hwf.1 (List.length_eq_zero.mp hlen.symm)

/-- Pointwise filtering commutes with first-match child selection. -/
theorem firstMatch_filterList {s : Split} {v : ℚ} :
    ∀ {ss : List Split} {cs cs2 : List Node}, filterList cs s = some cs2 →
      ∀ {c : Node}, firstMatch v ss cs = some c →
        ∃ c2, firstMatch v ss cs2 = some c2 ∧ filter_by_split c s = some c2 := by
  intro ss
  induction ss with
  | nil => intro cs cs2 _ c hc; simp [firstMatch] at hc
  | cons s0 rest ih =>
    intro cs cs2 hfl c hc
    cases cs with
    | nil => simp [firstMatch] at hc
    | cons c0 cs =>
      rw [filterList] at hfl
      simp only [Option.bind_eq_bind, Option.bind_eq_some, Option.pure_def,
        Option.some.injEq] at hfl
      rcases hfl with ⟨a, ha, b, hb, rfl⟩
      by_cases hm : s0.min < XVal.fin v ∧ XVal.fin v ≤ s0.max
      · rw [firstMatch] at hc ⊢
        rw [if_pos hm] at hc ⊢
        refine ⟨a, rfl, ?_⟩
        rw [← Option.some.inj hc]
        exact ha
      · rw [firstMatch] at hc ⊢
        rw [if_neg hm] at hc ⊢
        exact ih hb hc

mutual
/-- Evaluation preservation: filtering by a split whose interval
contains the assigned value of its feature does not change the
computed value. -/
theorem filter_pres (s : Split) (env : Env) (v : ℚ)
    (hmm : s.min < s.max) (henv : env.lookup s.feature = some v)
    (hv1 : s.min < XVal.fin v) (hv2 : XVal.fin v ≤ s.max) :
    ∀ (n : Node), WFT n = true → noStraddle s n = true →
      ∀ (m : Node), filter_by_split n s = some m →
      ∀ (r : ℚ), calculate_value n env = .ok r → calculate_value m env = .ok r
  | .leaf w, hwf, hns, m, hfil, r, heval => by
    rw [filter_by_split] at hfil
    simp only [Option.some.injEq] at hfil
    rw [← hfil]
    exact heval
  | .tree f ss cs, hwf, hns, m, hfil, r, heval => by
    rw [WFT] at hwf
    simp only [Bool.and_eq_true, beq_iff_eq] at hwf
    obtain ⟨⟨hch, hlen⟩, hwfl⟩ := hwf
    by_cases hf : f = s.feature
    · rw [filter_by_split] at hfil
      simp only [hf, if_true] at hfil
      have hfeat : ∀ t ∈ ss, t.feature = s.feature := fun t ht =>
        hf ▸ chainFrom_features hch t ht
      have hbd := noStraddle_tree_bounds hns hfeat
      obtain ⟨c, hfc, hcm, hfm⟩ :=
        chain_scan hmm XVal.ninf ss cs hch hlen (by simp) hbd
      have hmc : m = c := Option.some.inj (hfil ▸ hfc)
      rw [calculate_value, hf] at heval
      simp only [henv] at heval
      rw [scanSplits_eq] at heval
      simp only [hfm v hv1 hv2] at heval
      rw [hmc]
      exact heval
    · rw [filter_by_split] at hfil
      rw [if_neg hf] at hfil
      simp only [Option.bind_eq_bind, Option.bind_eq_some,
        Option.pure_def, Option.some.injEq] at hfil
      rcases hfil with ⟨cs2, hcs2, rfl⟩
      rw [calculate_value] at heval ⊢
      cases hlook : env.lookup f with
      | none =>
        simp only [hlook] at heval
        exact absurd heval (by simp)
      | some u =>
        simp only [hlook] at heval ⊢
        rw [scanSplits_eq] at heval
        rw [scanSplits_eq]
        cases hfm : firstMatch u ss cs with
        | none =>
          simp only [hfm] at heval
          exact absurd heval (by simp)
        | some c =>
          simp only [hfm] at heval
          obtain ⟨c2, hfm2, hfc2⟩ := firstMatch_filterList hcs2 hfm
          simp only [hfm2]
          exact filter_pres s env v hmm henv hv1 hv2 c
            (WFTList_mem hwfl (firstMatch_mem hfm))
            (noStraddle_tree_child hns (firstMatch_mem hfm)) c2 hfc2 r heval
  | .forest ts, hwf, hns, m, hfil, r, heval => by simp [WFT] at hwf
termination_by n => (sizeOf n, 0)
decreasing_by
  all_goals simp_wf
  all_goals have := List.sizeOf_lt_of_mem (firstMatch_mem hfm)
  all_goals omega

theorem filterList_pres (s : Split) (env : Env) (v : ℚ)
    (hmm : s.min < s.max) (henv : env.lookup s.feature = some v)
    (hv1 : s.min < XVal.fin v) (hv2 : XVal.fin v ≤ s.max) :
    ∀ (l : List Node), WFTList l = true →
      (∀ n ∈ l, noStraddle s n = true) →
      ∀ (l2 : List Node), filterList l s = some l2 →
      ∀ (vs : List ℚ), calcList l env = .ok vs → calcList l2 env = .ok vs
  | [], hwf, hns, l2, hfil, vs, heval => by
    rw [filterList] at hfil
    simp only [Option.some.injEq] at hfil
    rw [← hfil]
    exact heval
  | n :: ns, hwf, hns, l2, hfil, vs, heval => by
    rw [WFTList] at hwf
    simp only [Bool.and_eq_true] at hwf
    rw [filterList] at hfil
    simp only [Option.bind_eq_bind, Option.bind_eq_some, Option.pure_def,
      Option.some.injEq] at hfil
    rcases hfil with ⟨a, ha, b, hb, rfl⟩
    rw [calcList] at heval ⊢
    obtain ⟨v1, hv1e, hrest⟩ := except_bind_ok heval
    obtain ⟨vs1, hvs1, hpure⟩ := except_bind_ok hrest
    have he1 : calculate_value a env = .ok v1 :=
      filter_pres s env v hmm henv hv1 hv2 n hwf.1 (hns n (by simp)) a ha v1 hv1e
    have he2 : calcList b env = .ok vs1 :=
      filterList_pres s env v hmm henv hv1 hv2 ns hwf.2
        (fun c hc => hns c (List.mem_cons_of_mem _ hc)) b hb vs1 hvs1
    rw [he1]
    simp only [Bind.bind, Except.bind]
    rw [he2]
    simpa using hpure
termination_by l => (sizeOf l, 1)
end

/-- Reverse membership through pointwise filtering. -/
theorem filterList_mem_rev {s : Split} :
    ∀ {l l2 : List Node}, filterList l s = some l2 →
      ∀ {c2 : Node}, c2 ∈ l2 → ∃ c ∈ l, filter_by_split c s = some c2 := by
  intro l
  induction l with
  | nil =>
    intro l2 h c2 hc2
    rw [filterList] at h
    simp only [Option.some.injEq] at h
    rw [← h] at hc2
    simp at hc2
  | cons n ns ih =>
    intro l2 h c2 hc2
    rw [filterList] at h
    simp only [Option.bind_eq_bind, Option.bind_eq_some, Option.pure_def,
      Option.some.injEq] at h
    rcases h with ⟨a, ha, b, hb, rfl⟩
    rcases List.mem_cons.mp hc2 with rfl | hc2
    · exact ⟨n, by simp, ha⟩
    · rcases ih hb hc2 with ⟨c, hc, hcf⟩
      exact ⟨c, List.mem_cons_of_mem _ hc, hcf⟩

mutual
/-- Filtering never introduces features. -/
theorem filter_features (s : Split) :
    ∀ (n m : Node), filter_by_split n s = some m →
      ∀ g ∈ nodeFeatures m, g ∈ nodeFeatures n
  | .leaf w, m, hfil => by
    rw [filter_by_split] at hfil
    simp only [Option.some.injEq] at hfil
    rw [← hfil]
    exact fun g hg => hg
  | .tree f ss cs, m, hfil => by
    intro g hg
    by_cases hf : f = s.feature
    · rw [filter_by_split] at hfil
      simp only [hf, if_true] at hfil
      have hm := findContaining_mem hfil
      rw [nodeFeatures]
      exact List.mem_cons_of_mem _ (mem_nodeFeaturesList.mpr ⟨m, hm, hg⟩)
    · rw [filter_by_split] at hfil
      rw [if_neg hf] at hfil
      simp only [Option.bind_eq_bind, Option.bind_eq_some, Option.pure_def,
        Option.some.injEq] at hfil
      rcases hfil with ⟨cs2, hcs2, rfl⟩
      rw [nodeFeatures] at hg ⊢
      rcases List.mem_cons.mp hg with rfl | hg
      · simp
      · rcases mem_nodeFeaturesList.mp hg with ⟨c2, hc2, hgc⟩
        rcases filterList_mem_rev hcs2 hc2 with ⟨c, hc, hcf⟩
        exact List.mem_cons_of_mem _
          (mem_nodeFeaturesList.mpr ⟨c, hc, filter_features s c c2 hcf g hgc⟩)
  | .forest ts, m, hfil => by
    intro g hg
    rw [filter_by_split] at hfil
    simp only [Option.bind_eq_bind, Option.bind_eq_some, Option.pure_def,
      Option.some.injEq] at hfil
    rcases hfil with ⟨ts2, hts2, rfl⟩
    rw [nodeFeatures] at hg ⊢
    rcases mem_nodeFeaturesList.mp hg with ⟨c2, hc2, hgc⟩
    rcases filterList_mem_rev hts2 hc2 with ⟨c, hc, hcf⟩
    exact mem_nodeFeaturesList.mpr ⟨c, hc, filter_features s c c2 hcf g hgc⟩
termination_by n => sizeOf n
decreasing_by
  all_goals simp_wf
  all_goals have := List.sizeOf_lt_of_mem hc
  all_goals omega
end

mutual
/-- Filtering weakly decreases the Tree-node count, and strictly
decreases it when the filtered feature occurs. -/
theorem filter_treeCount (s : Split) :
    ∀ (n m : Node), filter_by_split n s = some m →
      treeCount m ≤ treeCount n ∧
        (s.feature ∈ nodeFeatures n → treeCount m < treeCount n)
  | .leaf w, m, hfil => by
    rw [filter_by_split] at hfil
    simp only [Option.some.injEq] at hfil
    rw [← hfil]
    exact ⟨le_refl _, by simp [nodeFeatures]⟩
  | .tree f ss cs, m, hfil => by
    by_cases hf : f = s.feature
    · rw [filter_by_split] at hfil
      simp only [hf, if_true] at hfil
      have hm := findContaining_mem hfil
      have hle := treeCount_mem_le hm
      rw [treeCount]
      exact ⟨by omega, fun _ => by omega⟩
    · rw [filter_by_split] at hfil
      rw [if_neg hf] at hfil
      simp only [Option.bind_eq_bind, Option.bind_eq_some, Option.pure_def,
        Option.some.injEq] at hfil
      rcases hfil with ⟨cs2, hcs2, rfl⟩
      have hl := filterList_treeCount s cs cs2 hcs2
      rw [treeCount, treeCount]
      refine ⟨by omega, fun hmem => ?_⟩
      rw [nodeFeatures] at hmem
      rcases List.mem_cons.mp hmem with heq | hmem
      · exact absurd heq.symm hf
      · have := hl.2 hmem
        omega
  | .forest ts, m, hfil => by
    rw [filter_by_split] at hfil
    simp only [Option.bind_eq_bind, Option.bind_eq_some, Option.pure_def,
      Option.some.injEq] at hfil
    rcases hfil with ⟨ts2, hts2, rfl⟩
    have hl := filterList_treeCount s ts ts2 hts2
    rw [treeCount, treeCount, nodeFeatures]
    exact hl
termination_by n => (sizeOf n, 0)

theorem filterList_treeCount (s : Split) :
    ∀ (l l2 : List Node), filterList l s = some l2 →
      treeCountList l2 ≤ treeCountList l ∧
        (s.feature ∈ nodeFeaturesList l → treeCountList l2 < treeCountList l)
  | [], l2, hfil => by
    rw [filterList] at hfil
    simp only [Option.some.injEq] at hfil
    rw [← hfil]
    exact ⟨le_refl _, by simp [nodeFeaturesList]⟩
  | n :: ns, l2, hfil => by
    rw [filterList] at hfil
    simp only [Option.bind_eq_bind, Option.bind_eq_some, Option.pure_def,
      Option.some.injEq] at hfil
    rcases hfil with ⟨a, ha, b, hb, rfl⟩
    have h1 := filter_treeCount s n a ha
    have h2 := filterList_treeCount s ns b hb
    rw [treeCountList, treeCountList, nodeFeaturesList]
    refine ⟨by omega, fun hmem => ?_⟩
    rcases List.mem_append.mp hmem with hmem | hmem
    · have := h1.2 hmem
      omega
    · have := h2.2 hmem
      omega
termination_by l => (sizeOf l, 1)
end

/-- Evaluation preservation for filtering a whole well-formed
forest. -/
theorem filter_pres_forest (s : Split) (env : Env) (v : ℚ)
    (hmm : s.min < s.max) (henv : env.lookup s.feature = some v)
    (hv1 : s.min < XVal.fin v) (hv2 : XVal.fin v ≤ s.max)
    (ts : List Node) (hwf : WF (.forest ts) = true)
    (hns : noStraddle s (.forest ts) = true)
    (m : Node) (hfil : filter_by_split (.forest ts) s = some m)
    (r : ℚ) (heval : calculate_value (.forest ts) env = .ok r) :
    calculate_value m env = .ok r := by
  rw [WF] at hwf
  simp only [Bool.and_eq_true] at hwf
  rw [filter_by_split] at hfil
  simp only [Option.bind_eq_bind, Option.bind_eq_some, Option.pure_def,
    Option.some.injEq] at hfil
  rcases hfil with ⟨ts2, hts2, rfl⟩
  rw [calculate_value] at heval ⊢
  obtain ⟨vs, hvs, hr⟩ := except_bind_ok heval
  have hvs2 : calcList ts2 env = .ok vs :=
    filterList_pres s env v hmm henv hv1 hv2 ts hwf.2
      (fun c hc => noStraddle_forest_member hns hc) ts2 hts2 vs hvs
  rw [hvs2]
  simp only [Bind.bind, Except.bind] at hr ⊢
  rw [filterList_length hts2]
  exact hr

/-! ## The scoring comparator and real logarithms -/

theorem logDiffLt_iff (n1 n2 : ℕ) (h1 : 1 ≤ n1) (h2 : 1 ≤ n2) (d : ℚ) :
    logDiffLt n1 n2 d = true ↔
      Real.logb 2 (n1 : ℝ) - Real.logb 2 (n2 : ℝ) < (d : ℝ) := by
  have hn1 : (0:ℝ) < (n1 : ℝ) := by exact_mod_cast h1
  have hn2 : (0:ℝ) < (n2 : ℝ) := by exact_mod_cast h2
  have hden : d.den ≠ 0 := d.den_nz
  have step1 : (Real.logb 2 (n1:ℝ) - Real.logb 2 (n2:ℝ) < (d : ℝ)) ↔
      ((n1:ℝ) < 2 ^ (d:ℝ) * (n2:ℝ)) := by
    rw [sub_lt_iff_lt_add, Real.logb_lt_iff_lt_rpow (by norm_num) hn1,
      Real.rpow_add (by norm_num), Real.rpow_logb (by norm_num) (by norm_num) hn2]
  have step2 : ((n1:ℝ) < 2 ^ (d:ℝ) * (n2:ℝ)) ↔
      ((n1:ℝ) ^ d.den < ((2:ℝ) ^ (d:ℝ) * (n2:ℝ)) ^ d.den) := by
    rw [pow_lt_pow_iff_left₀ (le_of_lt hn1)
      (mul_nonneg (Real.rpow_nonneg (by norm_num) _) (le_of_lt hn2)) hden]
  have hmulden : (d:ℝ) * (d.den:ℝ) = (d.num:ℝ) := by
    have hden0 : (d.den : ℚ) ≠ 0 := by exact_mod_cast hden
    have hq : (d:ℚ) * (d.den:ℚ) = (d.num:ℚ) := by
      have h0 : ((d.num : ℚ) / (d.den : ℚ)) * (d.den:ℚ) = (d.num:ℚ) :=
        div_mul_cancel₀ _ hden0
      rw [Rat.num_div_den d] at h0
      exact h0
    exact_mod_cast hq
  have step3 : ((2:ℝ) ^ (d:ℝ) * (n2:ℝ)) ^ d.den =
      (2:ℝ) ^ d.num * (n2:ℝ) ^ d.den := by
    rw [mul_pow]
    congr 1
    rw [← Real.rpow_natCast ((2:ℝ) ^ (d:ℝ)) d.den, ← Real.rpow_mul (by norm_num),
      hmulden, ← Real.rpow_intCast]
  rw [step1, step2, step3]
  rcases le_or_lt 0 d.num with ha | ha
  · have hz : (2:ℝ) ^ d.num = ((2 ^ d.num.toNat : ℕ) : ℝ) := by
      rw [← Int.toNat_of_nonneg ha, zpow_natCast]
      push_cast
      rw [Int.toNat_of_nonneg ha]
    simp only [logDiffLt]
    rw [if_pos ha, decide_eq_true_eq, hz]
    constructor
    · intro h; exact_mod_cast h
    · intro h; exact_mod_cast h
  · have hz : (2:ℝ) ^ d.num = (((2:ℕ) ^ (-d.num).toNat : ℕ) : ℝ)⁻¹ := by
      set k := (-d.num).toNat with hk
      have hneg : d.num = -(k : ℤ) := by omega
      rw [hneg, zpow_neg, zpow_natCast]
      push_cast
      norm_num
    simp only [logDiffLt]
    rw [if_neg (not_le.mpr ha), decide_eq_true_eq, hz]
    have hk : (0:ℝ) < (((2:ℕ) ^ (-d.num).toNat : ℕ) : ℝ) := by positivity
    rw [inv_mul_eq_div, lt_div_iff₀' hk]
    constructor
    · intro h; exact_mod_cast h
    · intro h; exact_mod_cast h

/-! ## Lemmas about find_best_split -/

theorem mem_dedupFirst {g : ℕ} : ∀ (l : List ℕ), (g ∈ dedupFirst l ↔ g ∈ l)
  | [] => by simp [dedupFirst]
  | x :: xs => by
    rw [dedupFirst]
    by_cases hg : g = x
    · simp [hg]
    · have ihr := mem_dedupFirst (g := g) (xs.filter (fun y => y ≠ x))
      constructor
      · intro h
        rcases List.mem_cons.mp h with rfl | h
        · simp
        · exact List.mem_cons_of_mem _ (List.mem_of_mem_filter (ihr.mp h))
      · intro h
        rcases List.mem_cons.mp h with rfl | h
        · simp
        · exact List.mem_cons_of_mem _
            (ihr.mpr (List.mem_filter.mpr ⟨h, by simpa using hg⟩))
termination_by l => l.length
decreasing_by
  simp_wf
  exact Nat.lt_succ_of_le (List.length_filter_le _ _)

theorem maxByKey_max (sc : ℕ → ℝ) (gt : ℕ → ℕ → Bool) :
    ∀ (l : List ℕ) (b : ℕ),
      (∀ x ∈ b :: l, ∀ y ∈ b :: l, (gt x y = true ↔ sc y < sc x)) →
      (maxByKey gt b l ∈ b :: l) ∧ sc b ≤ sc (maxByKey gt b l) ∧
        ∀ x ∈ l, sc x ≤ sc (maxByKey gt b l) := by
  intro l
  induction l with
  | nil => intro b _; simp [maxByKey]
  | cons f fs ih =>
    intro b hgt
    rw [maxByKey]
    by_cases h : gt f b = true
    · rw [if_pos h]
      have hfb : sc b < sc f := (hgt f (by simp) b (by simp)).mp h
      have hgt2 : ∀ x ∈ f :: fs, ∀ y ∈ f :: fs, (gt x y = true ↔ sc y < sc x) := by
        intro x hx y hy
        exact hgt x (List.mem_cons_of_mem b hx) y (List.mem_cons_of_mem b hy)
      obtain ⟨hmem, hle, hall⟩ := ih f hgt2
      refine ⟨List.mem_cons_of_mem b hmem, le_trans (le_of_lt hfb) hle, ?_⟩
      intro x hx
      rcases List.mem_cons.mp hx with rfl | hx
      · exact hle
      · exact hall x hx
    · rw [if_neg h]
      have hnotlt : sc f ≤ sc b := by
        by_contra hcon
        push_neg at hcon
        exact absurd ((hgt f (by simp) b (by simp)).mpr hcon) h
      have hgt2 : ∀ x ∈ b :: fs, ∀ y ∈ b :: fs, (gt x y = true ↔ sc y < sc x) := by
        have hsub : ∀ z ∈ b :: fs, z ∈ b :: f :: fs := by
          intro z hz
          rcases List.mem_cons.mp hz with rfl | hz
          · simp
          · simp [hz]
        intro x hx y hy
        exact hgt x (hsub x hx) y (hsub y hy)
      obtain ⟨hmem, hle, hall⟩ := ih b hgt2
      have hmem2 : maxByKey gt b fs ∈ b :: f :: fs := by
        rcases List.mem_cons.mp hmem with heq | hm2
        · simp [heq]
        · simp [hm2]
      refine ⟨hmem2, hle, ?_⟩
      intro x hx
      rcases List.mem_cons.mp hx with rfl | hx
      · exact le_trans hnotlt hle
      · exact hall x hx

theorem mem_endpointsFor {e : XVal} {ws : List (ℚ × Split)} {f : ℕ} :
    e ∈ endpointsFor ws f ↔
      ∃ p ∈ ws, p.2.feature = f ∧ (e = p.2.min ∨ e = p.2.max) := by
  rw [endpointsFor]
  induction ws with
  | nil => simp
  | cons p ps ih =>
    by_cases hf : p.2.feature = f
    · rw [List.filter_cons_of_pos (by simpa using hf)]
      simp only [List.foldr]
      constructor
      · intro h
        rcases List.mem_cons.mp h with rfl | h
        · exact ⟨p, by simp, hf, by simp⟩
        rcases List.mem_cons.mp h with rfl | h
        · exact ⟨p, by simp, hf, by simp⟩
        · rcases ih.mp h with ⟨q, hq, hqf, hor⟩
          exact ⟨q, List.mem_cons_of_mem _ hq, hqf, hor⟩
      · rintro ⟨q, hq, hqf, hor⟩
        rcases List.mem_cons.mp hq with rfl | hq
        · rcases hor with rfl | rfl <;> simp
        · have := ih.mpr ⟨q, hq, hqf, hor⟩
          simp only [List.mem_cons]
          right; right; exact this
    · rw [List.filter_cons_of_neg (by simpa using hf)]
      rw [ih]
      constructor
      · rintro ⟨q, hq, hqf, hor⟩
        exact ⟨q, List.mem_cons_of_mem _ hq, hqf, hor⟩
      · rintro ⟨q, hq, hqf, hor⟩
        rcases List.mem_cons.mp hq with rfl | hq
        · exact absurd hqf hf
        · exact ⟨q, hq, hqf, hor⟩

/-- On the census of a node, the recorded endpoints of a feature are
exactly the boundaries of that feature in the node. -/
theorem endpointsFor_census {n : Node} {w : ℚ} {f : ℕ} :
    endpointsFor (get_weighted_splits n w) f = boundariesOn f n := by
  rw [endpointsFor, boundariesOn, ← gws_snd n w, splitBounds]
  generalize get_weighted_splits n w = l
  induction l with
  | nil => simp
  | cons p ps ih =>
    by_cases hf : p.2.feature = f
    · rw [List.filter_cons_of_pos (by simpa using hf), List.map_cons,
        List.filter_cons_of_pos (by simpa using hf)]
      simp only [List.foldr]
      rw [ih]
    · rw [List.filter_cons_of_neg (by simpa using hf), List.map_cons,
        List.filter_cons_of_neg (by simpa using hf)]
      exact ih

theorem numCuts_pos {ws : List (ℚ × Split)} {f : ℕ}
    (h : ∃ p ∈ ws, p.2.feature = f) : 1 ≤ numCuts ws f := by
  rw [numCuts]
  rcases h with ⟨p, hp, hf⟩
  have : p.2.min ∈ endpointsFor ws f := mem_endpointsFor.mpr ⟨p, hp, hf, by simp⟩
  have hmem : p.2.min ∈ (endpointsFor ws f).dedup := List.mem_dedup.mpr this
  cases hd : (endpointsFor ws f).dedup with
  | nil => rw [hd] at hmem; simp at hmem
  | cons a as => simp

/-- Strictly sorted cut lists: adjacent zip pairs are increasing and
no element lies strictly between an adjacent pair. -/
theorem pairwise_zip_tail {l : List XVal} (hs : List.Pairwise (· < ·) l) :
    ∀ p ∈ l.zip l.tail, p.1 < p.2 ∧ ∀ e ∈ l, e ≤ p.1 ∨ p.2 ≤ e := by
  induction l with
  | nil => simp
  | cons x xs ih =>
    rintro ⟨p1, p2⟩ hp
    cases xs with
    | nil => simp at hp
    | cons y ys =>
      rw [List.tail_cons, List.zip_cons_cons] at hp
      have hpc := List.pairwise_cons.mp hs
      rcases List.mem_cons.mp hp with heq | hp
      · have h1 : p1 = x := congrArg Prod.fst heq
        have h2 : p2 = y := congrArg Prod.snd heq
        rw [h1, h2]
        refine ⟨hpc.1 y (by simp), ?_⟩
        intro e he
        rcases List.mem_cons.mp he with he0 | he
        · refine Or.inl ?_
          rw [he0]
        · rcases List.mem_cons.mp he with he0 | he
          · refine Or.inr ?_
            rw [he0]
          · exact Or.inr (le_of_lt ((List.pairwise_cons.mp hpc.2).1 e he))
      · have hres := ih hpc.2 (p1, p2) (by rw [List.tail_cons]; exact hp)
        refine ⟨hres.1, ?_⟩
        intro e he
        rcases List.mem_cons.mp he with he0 | he
        · have hp1 : p1 ∈ y :: ys := (List.of_mem_zip hp).1
          refine Or.inl ?_
          rw [he0]
          exact le_of_lt (hpc.1 p1 hp1)
        · exact hres.2 e he

theorem head_of_mem_bot {l : List XVal} (hs : List.Pairwise (· < ·) l)
    (hm : XVal.ninf ∈ l) : ∃ xs, l = XVal.ninf :: xs := by
  cases l with
  | nil => simp at hm
  | cons x xs =>
    rcases List.mem_cons.mp hm with rfl | hm
    · exact ⟨xs, rfl⟩
    · have hlt := (List.pairwise_cons.mp hs).1 _ hm
      exact absurd hlt (not_lt.mpr (XVal.ninf_le x))

theorem getLast?_of_mem_top : ∀ {l : List XVal},
    List.Pairwise (· < ·) l → XVal.pinf ∈ l → l.getLast? = some XVal.pinf := by
  intro l
  induction l with
  | nil => intro _ hm; simp at hm
  | cons x xs ih =>
    intro hs hm
    cases xs with
    | nil =>
      simp at hm
      simp [hm]
    | cons y ys =>
      rw [List.getLast?_cons_cons]
      apply ih (List.pairwise_cons.mp hs).2
      rcases List.mem_cons.mp hm with rfl | hm
      · exfalso
        have hlt := (List.pairwise_cons.mp hs).1 y (by simp)
        exact absurd hlt (not_lt.mpr (XVal.le_pinf y))
      · exact hm

/-- Adjacent pairs of a strictly sorted list ending at `+infinity`
form a total chain. -/
theorem zip_pairs_chain (best : ℕ) :
    ∀ (xs : List XVal) (a : XVal), List.Pairwise (· < ·) (a :: xs) →
      xs ≠ [] → (a :: xs).getLast? = some XVal.pinf →
      chainFrom best a (((a :: xs).zip xs).map
        (fun p => ⟨best, p.1, p.2⟩)) = true := by
  intro xs
  induction xs with
  | nil => intro a _ hne _; exact absurd rfl hne
  | cons b ys ih =>
    intro a hs _ hlast
    cases ys with
    | nil =>
      simp only [List.zip_cons_cons, List.zip_nil_right, List.map_cons,
        List.map_nil]
      rw [chainFrom]
      simp only [List.getLast?_cons_cons, List.getLast?_singleton,
        Option.some.injEq] at hlast
      have hab : a < b := (List.pairwise_cons.mp hs).1 b (by simp)
      have hapinf : a < XVal.pinf := hlast ▸ hab
      simp [hab, hlast, hapinf]
    | cons c zs =>
      simp only [List.zip_cons_cons, List.map_cons]
      rw [chainFrom]
      have hab : a < b := (List.pairwise_cons.mp hs).1 b (by simp)
      have htail : chainFrom best b (((b :: c :: zs).zip (c :: zs)).map
          (fun p => ⟨best, p.1, p.2⟩)) = true := by
        apply ih b (List.pairwise_cons.mp hs).2 (by simp)
        rw [List.getLast?_cons_cons] at hlast
        exact hlast
      simp only [List.zip_cons_cons, List.map_cons] at htail
      simp [hab, htail]

theorem chain_bounds {f : ℕ} :
    ∀ {lo : XVal} {ss : List Split}, chainFrom f lo ss = true →
      (∃ s ∈ ss, s.min = lo) ∧ (∃ s ∈ ss, s.max = XVal.pinf) := by
  intro lo ss
  induction ss generalizing lo with
  | nil => intro h; simp [chainFrom] at h
  | cons s rest ih =>
    intro h
    have hc := chainFrom_cons h
    refine ⟨⟨s, by simp, hc.2.1⟩, ?_⟩
    cases rest with
    | nil => exact ⟨s, by simp, hc.2.2.2.1 rfl⟩
    | cons r rs =>
      obtain ⟨-, q, hq, hqm⟩ := ih (hc.2.2.2.2 (by simp))
      exact ⟨q, List.mem_cons_of_mem _ hq, hqm⟩

mutual
/-- In a well-formed node, every split's feature is a node feature,
and that feature has splits reaching both infinities. -/
theorem allSplits_wf (n : Node) (hwf : WFT n = true) :
    ∀ sp ∈ allSplits n, sp.feature ∈ nodeFeatures n ∧
      (∃ q ∈ allSplits n, q.feature = sp.feature ∧ q.min = XVal.ninf) ∧
      (∃ q ∈ allSplits n, q.feature = sp.feature ∧ q.max = XVal.pinf) := by
  cases n with
  | leaf v => intro sp hsp; rw [allSplits] at hsp; simp at hsp
  | tree f ss cs =>
    intro sp hsp
    rw [WFT] at hwf
    simp only [Bool.and_eq_true, beq_iff_eq] at hwf
    obtain ⟨⟨hch, hlen⟩, hwfl⟩ := hwf
    rw [allSplits] at hsp
    rw [allSplits, nodeFeatures]
    rcases List.mem_append.mp hsp with hsp | hsp
    · have hf : sp.feature = f := chainFrom_features hch sp hsp
      obtain ⟨⟨q1, hq1, hq1m⟩, ⟨q2, hq2, hq2m⟩⟩ := chain_bounds hch
      refine ⟨by simp [hf], ⟨q1, ?_, ?_, hq1m⟩, ⟨q2, ?_, ?_, hq2m⟩⟩
      · exact List.mem_append_left _ hq1
      · rw [hf]; exact chainFrom_features hch q1 hq1
      · exact List.mem_append_left _ hq2
      · rw [hf]; exact chainFrom_features hch q2 hq2
    · obtain ⟨hfeat, ⟨q1, hq1, hq1f, hq1m⟩, ⟨q2, hq2, hq2f, hq2m⟩⟩ :=
        allSplits_wfList cs hwfl sp hsp
      exact ⟨List.mem_cons_of_mem _ hfeat,
        ⟨q1, List.mem_append_right _ hq1, hq1f, hq1m⟩,
        ⟨q2, List.mem_append_right _ hq2, hq2f, hq2m⟩⟩
  | forest ts => intro sp hsp; simp [WFT] at hwf
termination_by (sizeOf n, 0)

theorem allSplits_wfList (l : List Node) (hwf : WFTList l = true) :
    ∀ sp ∈ allSplitsList l, sp.feature ∈ nodeFeaturesList l ∧
      (∃ q ∈ allSplitsList l, q.feature = sp.feature ∧ q.min = XVal.ninf) ∧
      (∃ q ∈ allSplitsList l, q.feature = sp.feature ∧ q.max = XVal.pinf) := by
  cases l with
  | nil => intro sp hsp; rw [allSplitsList] at hsp; simp at hsp
  | cons n ns =>
    intro sp hsp
    rw [WFTList] at hwf
    simp only [Bool.and_eq_true] at hwf
    rw [allSplitsList] at hsp
    rw [allSplitsList, nodeFeaturesList]
    rcases List.mem_append.mp hsp with hsp | hsp
    · obtain ⟨hfeat, ⟨q1, hq1, hq1f, hq1m⟩, ⟨q2, hq2, hq2f, hq2m⟩⟩ :=
        allSplits_wf n hwf.1 sp hsp
      exact ⟨List.mem_append_left _ hfeat,
        ⟨q1, List.mem_append_left _ hq1, hq1f, hq1m⟩,
        ⟨q2, List.mem_append_left _ hq2, hq2f, hq2m⟩⟩
    · obtain ⟨hfeat, ⟨q1, hq1, hq1f, hq1m⟩, ⟨q2, hq2, hq2f, hq2m⟩⟩ :=
        allSplits_wfList ns hwf.2 sp hsp
      exact ⟨List.mem_append_right _ hfeat,
        ⟨q1, List.mem_append_right _ hq1, hq1f, hq1m⟩,
        ⟨q2, List.mem_append_right _ hq2, hq2f, hq2m⟩⟩
termination_by (sizeOf l, 1)
end

/-- Forest version of `allSplits_wf`. -/
theorem allSplits_WF (ts : List Node) (hwf : WF (.forest ts) = true) :
    ∀ sp ∈ allSplits (.forest ts), sp.feature ∈ nodeFeatures (.forest ts) ∧
      XVal.ninf ∈ boundariesOn sp.feature (.forest ts) ∧
      XVal.pinf ∈ boundariesOn sp.feature (.forest ts) := by
  intro sp hsp
  rw [WF] at hwf
  simp only [Bool.and_eq_true] at hwf
  rw [allSplits] at hsp
  obtain ⟨hfeat, ⟨q1, hq1, hq1f, hq1m⟩, ⟨q2, hq2, hq2f, hq2m⟩⟩ :=
    allSplits_wfList ts hwf.2 sp hsp
  refine ⟨by rw [nodeFeatures]; exact hfeat, ?_, ?_⟩
  · exact mem_boundariesOn.mpr ⟨q1, by rw [allSplits]; exact hq1, hq1f,
      Or.inl hq1m.symm⟩
  · exact mem_boundariesOn.mpr ⟨q2, by rw [allSplits]; exact hq2, hq2f,
      Or.inr hq2m.symm⟩

/-- What `find_best_split` returns on a non-empty census: splits on a
single feature attaining the maximal saving score
`weight - log2(#distinct endpoints)`, built as the adjacent pairs of
the strictly sorted distinct endpoints of that feature. -/
theorem find_best_split_spec (ws : List (ℚ × Split)) (hne : ws ≠ []) :
    ∃ best cuts,
      best ∈ ws.map (fun p => p.2.feature) ∧
      (∀ g ∈ ws.map (fun p => p.2.feature),
        (weightFor ws g : ℝ) - Real.logb 2 (numCuts ws g) ≤
          (weightFor ws best : ℝ) - Real.logb 2 (numCuts ws best)) ∧
      List.Pairwise (· < ·) cuts ∧
      (∀ e, e ∈ cuts ↔ e ∈ endpointsFor ws best) ∧
      find_best_split ws =
        (cuts.zip cuts.tail).map (fun p => ⟨best, p.1, p.2⟩) := by
  have hmapne : ws.map (fun p => p.2.feature) ≠ [] := by
    cases ws with
    | nil => exact absurd rfl hne
    | cons p ps => simp
  cases hdf : dedupFirst (ws.map (fun p => p.2.feature)) with
  | nil =>
    exfalso
    cases hm : ws.map (fun p => p.2.feature) with
    | nil => exact hmapne hm
    | cons a as => rw [hm, dedupFirst] at hdf; simp at hdf
  | cons f0 fs =>
    have hmemdf : ∀ g ∈ f0 :: fs, ∃ p ∈ ws, p.2.feature = g := by
      intro g hg
      have : g ∈ ws.map (fun p => p.2.feature) := by
        rw [← hdf] at hg
        exact mem_dedupFirst _ |>.mp hg
      rcases List.mem_map.mp this with ⟨p, hp, hpf⟩
      exact ⟨p, hp, hpf⟩
    have hgt : ∀ x ∈ f0 :: fs, ∀ y ∈ f0 :: fs,
        (savingGt ws x y = true ↔
          (weightFor ws y : ℝ) - Real.logb 2 (numCuts ws y) <
            (weightFor ws x : ℝ) - Real.logb 2 (numCuts ws x)) := by
      intro x hx y hy
      rw [savingGt, logDiffLt_iff _ _ (numCuts_pos (hmemdf x hx))
        (numCuts_pos (hmemdf y hy))]
      rw [Rat.cast_sub]
      constructor
      · intro h; linarith
      · intro h; linarith
    obtain ⟨hmem, hle0, hall⟩ := maxByKey_max
      (fun g => (weightFor ws g : ℝ) - Real.logb 2 (numCuts ws g))
      (savingGt ws) fs f0 hgt
    refine ⟨maxByKey (savingGt ws) f0 fs,
      List.insertionSort (fun a b => a ≤ b) (endpointsFor ws
        (maxByKey (savingGt ws) f0 fs)).dedup, ?_, ?_, ?_, ?_, ?_⟩
    · rw [← mem_dedupFirst (l := ws.map (fun p => p.2.feature)), hdf]
      exact hmem
    · intro g hg
      have hgdf : g ∈ f0 :: fs := by
        rw [← hdf]
        exact (mem_dedupFirst _).mpr hg
      rcases List.mem_cons.mp hgdf with rfl | hgfs
      · exact hle0
      · exact hall g hgfs
    · have hsorted : List.Sorted (fun a b : XVal => a ≤ b)
          (List.insertionSort (fun a b => a ≤ b) (endpointsFor ws
            (maxByKey (savingGt ws) f0 fs)).dedup) :=
        List.sorted_insertionSort _ _
      have hnodup : (List.insertionSort (fun a b : XVal => a ≤ b)
          (endpointsFor ws (maxByKey (savingGt ws) f0 fs)).dedup).Nodup :=
        ((List.perm_insertionSort _ _).nodup_iff).mpr (List.nodup_dedup _)
      have hand := List.Pairwise.and hsorted hnodup
      exact hand.imp (fun h => lt_of_le_of_ne h.1 h.2)
    · intro e
      rw [(List.perm_insertionSort _ _).mem_iff, List.mem_dedup]
    · rw [find_best_split, hdf]

/-- On the census of a well-formed forest, `find_best_split` yields a
non-empty total chain of non-degenerate splits on a single feature of
the forest, none of which straddles any boundary of that feature. -/
theorem find_best_split_census (ts : List Node) (hWF : WF (.forest ts) = true)
    (hne : get_weighted_splits (.forest ts) 1 ≠ []) :
    ∃ best, best ∈ nodeFeatures (.forest ts) ∧
      chainFrom best XVal.ninf
        (find_best_split (get_weighted_splits (.forest ts) 1)) = true ∧
      ∀ s ∈ find_best_split (get_weighted_splits (.forest ts) 1),
        s.feature = best ∧ s.min < s.max ∧ noStraddle s (.forest ts) = true := by
  obtain ⟨best, cuts, hmem, hmax, hpw, hcuts, heq⟩ :=
    find_best_split_spec (get_weighted_splits (.forest ts) 1) hne
  rcases List.mem_map.mp hmem with ⟨p, hp, hpf⟩
  have hsp : p.2 ∈ allSplits (.forest ts) := by
    rw [← gws_snd (.forest ts) 1]
    exact List.mem_map.mpr ⟨p, hp, rfl⟩
  obtain ⟨hbf, hninf, hpinf⟩ := allSplits_WF ts hWF p.2 hsp
  rw [hpf] at hbf hninf hpinf
  have hbd_eq : boundariesOn best (.forest ts) =
      endpointsFor (get_weighted_splits (.forest ts) 1) best :=
    endpointsFor_census.symm
  have hninf_cuts : XVal.ninf ∈ cuts := (hcuts _).mpr (hbd_eq ▸ hninf)
  have hpinf_cuts : XVal.pinf ∈ cuts := (hcuts _).mpr (hbd_eq ▸ hpinf)
  obtain ⟨xs, hcons⟩ := head_of_mem_bot hpw hninf_cuts
  have hxsne : xs ≠ [] := by
    intro hnil
    rw [hcons, hnil] at hpinf_cuts
    simp at hpinf_cuts
  have hlast : cuts.getLast? = some XVal.pinf := getLast?_of_mem_top hpw hpinf_cuts
  refine ⟨best, hbf, ?_, ?_⟩
  · rw [heq, hcons]
    have := zip_pairs_chain best xs XVal.ninf (hcons ▸ hpw) hxsne (hcons ▸ hlast)
    simpa using this
  · intro s hs
    rw [heq] at hs
    rcases List.mem_map.mp hs with ⟨q, hq, hsq⟩
    obtain ⟨hqlt, hqadj⟩ := pairwise_zip_tail hpw q hq
    have hsfeat : s.feature = best := by rw [← hsq]
    have hsmin : s.min = q.1 := by rw [← hsq]
    have hsmax : s.max = q.2 := by rw [← hsq]
    refine ⟨hsfeat, by rw [hsmin, hsmax]; exact hqlt, ?_⟩
    rw [noStraddle, List.all_eq_true]
    intro e he
    have hecuts : e ∈ cuts := (hcuts e).mpr (by rw [← hbd_eq, ← hsfeat]; exact he)
    have := hqadj e hecuts
    rw [hsmin, hsmax]
    rcases this with h | h
    · simp [h]
    · simp [h]

/-! ## The base case: empty census -/

theorem census_empty_leaf (n : Node) (hwf : WFT n = true)
    (h : get_weighted_splits n 1 = []) : ∃ v, n = .leaf v := by
  cases n with
  | leaf v => exact ⟨v, rfl⟩
  | tree f ss cs =>
    rw [WFT] at hwf
    simp only [Bool.and_eq_true, beq_iff_eq] at hwf
    obtain ⟨⟨hch, -⟩, -⟩ := hwf
    cases ss with
    | nil => simp [chainFrom] at hch
    | cons s rest =>
      rw [get_weighted_splits] at h
      simp at h
  | forest ts => simp [WFT] at hwf

theorem gwsList_empty {ts : List Node} {w : ℚ}
    (h : gwsList ts w = []) : ∀ t ∈ ts, get_weighted_splits t w = [] := by
  induction ts with
  | nil => simp
  | cons t rest ih =>
    rw [gwsList] at h
    rcases List.append_eq_nil.mp h with ⟨h1, h2⟩
    intro u hu
    rcases List.mem_cons.mp hu with rfl | hu
    · exact h1
    · exact ih h2 u hu

/-- All-leaf member lists evaluate to exactly their leaf values. -/
theorem leaves_calc (ts : List Node) (hlv : ∀ t ∈ ts, ∃ v, t = .leaf v) :
    ∃ vs, leafValues ts = some vs ∧ ∀ env, calcList ts env = .ok vs := by
  induction ts with
  | nil => exact ⟨[], by rw [leafValues], fun env => by rw [calcList]⟩
  | cons t rest ih =>
    obtain ⟨v, rfl⟩ := hlv t (by simp)
    obtain ⟨vs, hvs, hcalc⟩ := ih (fun u hu => hlv u (List.mem_cons_of_mem _ hu))
    refine ⟨v :: vs, ?_, fun env => ?_⟩
    · rw [leafValues]
      simp only [leafValue, Option.bind_eq_bind, Option.some_bind, hvs]
      rfl
    · rw [calcList, calculate_value]
      simp only [Bind.bind, Except.bind, hcalc env]
      rfl

/-- Identify the split paired with the child selected by
`firstMatch`. -/
theorem firstMatch_pair {v : ℚ} :
    ∀ {ss : List Split} {cs : List Node} {c : Node},
      firstMatch v ss cs = some c →
      ∃ s, (s, c) ∈ ss.zip cs ∧ s.min < XVal.fin v ∧ XVal.fin v ≤ s.max := by
  intro ss
  induction ss with
  | nil => intro cs c h; simp [firstMatch] at h
  | cons s0 rest ih =>
    intro cs c h
    cases cs with
    | nil => simp [firstMatch] at h
    | cons c0 cs =>
      rw [firstMatch] at h
      by_cases hm : s0.min < XVal.fin v ∧ XVal.fin v ≤ s0.max
      · rw [if_pos hm] at h
        exact ⟨s0, by simp [← Option.some.inj h], hm.1, hm.2⟩
      · rw [if_neg hm] at h
        rcases ih h with ⟨s, hs, h1, h2⟩
        exact ⟨s, by simp [hs], h1, h2⟩

/-! ## Merge-buckets invariants -/

theorem chainSeg_append {f : ℕ} :
    ∀ {A : List Split} {lo mid hi : XVal} {B : List Split},
      chainSeg f lo mid A = true → chainSeg f mid hi B = true →
      chainSeg f lo hi (A ++ B) = true := by
  intro A
  induction A with
  | nil =>
    intro lo mid hi B hA hB
    rw [chainSeg] at hA
    simp only [beq_iff_eq] at hA
    rw [hA, List.nil_append]
    exact hB
  | cons s rest ih =>
    intro lo mid hi B hA hB
    rw [chainSeg] at hA
    simp only [Bool.and_eq_true, beq_iff_eq, decide_eq_true_eq] at hA
    rw [List.cons_append, chainSeg]
    simp only [Bool.and_eq_true, beq_iff_eq, decide_eq_true_eq]
    exact ⟨⟨⟨hA.1.1.1, hA.1.1.2⟩, hA.1.2⟩, ih hA.2 hB⟩

theorem chainSeg_snoc {f : ℕ} {r : Split} :
    ∀ {A : List Split} {lo hi : XVal},
      chainSeg f lo hi (A ++ [r]) = true ↔
        (chainSeg f lo r.min A = true ∧ r.feature = f ∧ r.min < r.max ∧
          r.max = hi) := by
  intro A
  induction A with
  | nil =>
    intro lo hi
    simp only [List.nil_append, chainSeg, Bool.and_eq_true, beq_iff_eq,
      decide_eq_true_eq]
    constructor
    · rintro ⟨⟨⟨h1, h2⟩, h3⟩, h4⟩
      exact ⟨h2.symm, h1, by rw [h2]; exact h3, h4⟩
    · rintro ⟨h0, h1, h3, h4⟩
      exact ⟨⟨⟨h1, h0.symm⟩, by rw [h0]; exact h3⟩, h4⟩
  | cons s rest ih =>
    intro lo hi
    rw [List.cons_append, chainSeg, chainSeg]
    simp only [Bool.and_eq_true, beq_iff_eq, decide_eq_true_eq]
    rw [ih]
    tauto

theorem chainFrom_seg {f : ℕ} :
    ∀ {ss : List Split} {lo : XVal}, chainFrom f lo ss = true →
      chainSeg f lo XVal.pinf ss = true := by
  intro ss
  induction ss with
  | nil => intro lo h; simp [chainFrom] at h
  | cons s rest ih =>
    intro lo h
    have hc := chainFrom_cons h
    rw [chainSeg]
    simp only [Bool.and_eq_true, beq_iff_eq, decide_eq_true_eq]
    refine ⟨⟨⟨hc.1, hc.2.1⟩, hc.2.2.1⟩, ?_⟩
    cases rest with
    | nil =>
      rw [chainSeg]
      simp [hc.2.2.2.1 rfl]
    | cons r rs => exact ih (hc.2.2.2.2 (by simp))

theorem chainSeg_from {f : ℕ} :
    ∀ {ss : List Split} {lo : XVal}, ss ≠ [] →
      chainSeg f lo XVal.pinf ss = true → chainFrom f lo ss = true := by
  intro ss
  induction ss with
  | nil => intro lo h; exact absurd rfl h
  | cons s rest ih =>
    intro lo _ h
    rw [chainSeg] at h
    simp only [Bool.and_eq_true, beq_iff_eq, decide_eq_true_eq] at h
    cases rest with
    | nil =>
      rw [chainSeg] at h
      simp only [beq_iff_eq] at h
      rw [chainFrom]
      simp only [Bool.and_eq_true, beq_iff_eq, decide_eq_true_eq]
      exact ⟨⟨⟨h.1.1.1, h.1.1.2⟩, h.1.2⟩, by simp [h.2]⟩
    | cons r rs =>
      rw [chainFrom]
      simp only [Bool.and_eq_true, beq_iff_eq, decide_eq_true_eq]
      exact ⟨⟨⟨h.1.1.1, h.1.1.2⟩, h.1.2⟩, ih (by simp) h.2⟩

/-- The invariant of the `merge_buckets` fold: starting from a
non-empty reversed accumulator, the fold keeps the lists matched in
length, only keeps original or bucketized-leaf children, does not grow
beyond the input, and preserves the chain structure. -/
theorem merge_fold (f : ℚ → ℚ) (best : ℕ) :
    ∀ (ps : List (Split × Node)) (r0 : Split) (rs : List Split)
      (c0 : Node) (rc : List Node), rs.length = rc.length →
      r0.feature = best → (∀ q ∈ ps, q.1.feature = best) →
      ∃ r2 rs2 c2 rc2,
        ps.foldl (mergeStep f) (some (r0 :: rs, c0 :: rc))
          = some (r2 :: rs2, c2 :: rc2) ∧
        rs2.length = rc2.length ∧
        (r2 :: rs2).length ≤ (r0 :: rs).length + ps.length ∧
        (∀ c ∈ c2 :: rc2, c ∈ c0 :: rc ∨ (∃ p ∈ ps, c = p.2) ∨
          ∃ v, c = .leaf v) ∧
        (∀ lo, chainSeg best lo r0.max ((r0 :: rs).reverse) = true →
          chainSeg best r0.max XVal.pinf (ps.map (fun p => p.1)) = true →
          chainSeg best lo XVal.pinf ((r2 :: rs2).reverse) = true) := by
  intro ps
  induction ps with
  | nil =>
    intro r0 rs c0 rc hlen hr0 hps
    refine ⟨r0, rs, c0, rc, by rw [List.foldl_nil], hlen, by simp, ?_, ?_⟩
    · intro c hc
      exact Or.inl hc
    · intro lo hseg hnil
      rw [List.map_nil, chainSeg] at hnil
      simp only [beq_iff_eq] at hnil
      rw [← hnil]
      exact hseg
  | cons p ps ih =>
    intro r0 rs c0 rc hlen hr0 hps
    rw [List.foldl_cons]
    rw [mergeStep]
    by_cases heq : nodeEq c0 (mergeChild f p.2) = true
    · have hfeq : r0.feature = p.1.feature := by
        rw [hr0, hps p (by simp)]
      simp only [heq, if_true]
      rw [if_pos hfeq]
      obtain ⟨r2, rs2, c2, rc2, hfold, hlen2, hle, hmem, hchain⟩ :=
        ih ⟨r0.feature, r0.min, p.1.max⟩ rs c0 rc hlen (by simpa using hr0)
          (fun q hq => hps q (List.mem_cons_of_mem _ hq))
      refine ⟨r2, rs2, c2, rc2, hfold, hlen2, by simp at hle ⊢; omega, ?_, ?_⟩
      · intro c hc
        rcases hmem c hc with h | ⟨q, hq, hcq⟩ | h
        · exact Or.inl h
        · exact Or.inr (Or.inl ⟨q, List.mem_cons_of_mem _ hq, hcq⟩)
        · exact Or.inr (Or.inr h)
      · intro lo hseg hin
        rw [List.map_cons, chainSeg] at hin
        simp only [Bool.and_eq_true, beq_iff_eq, decide_eq_true_eq] at hin
        obtain ⟨⟨⟨hf1, hm1⟩, hlt1⟩, hin2⟩ := hin
        apply hchain lo ?_ ?_
        · rw [List.reverse_cons] at hseg ⊢
          rw [chainSeg_snoc] at hseg ⊢
          obtain ⟨hA, hrf, hrlt, -⟩ := hseg
          exact ⟨hA, hrf, lt_trans hrlt hlt1, rfl⟩
        · exact hin2
    · simp only [heq, if_false]
      obtain ⟨r2, rs2, c2, rc2, hfold, hlen2, hle, hmem, hchain⟩ :=
        ih p.1 (r0 :: rs) (mergeChild f p.2) (c0 :: rc) (by simp [hlen])
          (hps p (by simp)) (fun q hq => hps q (List.mem_cons_of_mem _ hq))
      refine ⟨r2, rs2, c2, rc2, hfold, hlen2, by simp at hle ⊢; omega, ?_, ?_⟩
      · intro c hc
        rcases hmem c hc with h | ⟨q, hq, hcq⟩ | h
        · rcases List.mem_cons.mp h with rfl | h2
          · rcases mergeChild_cases f p.2 with hcc | ⟨v, hcc⟩
            · exact Or.inr (Or.inl ⟨p, by simp, hcc⟩)
            · exact Or.inr (Or.inr ⟨v, hcc⟩)
          · exact Or.inl h2
        · exact Or.inr (Or.inl ⟨q, List.mem_cons_of_mem _ hq, hcq⟩)
        · exact Or.inr (Or.inr h)
      · intro lo hseg hin
        rw [List.map_cons, chainSeg] at hin
        simp only [Bool.and_eq_true, beq_iff_eq, decide_eq_true_eq] at hin
        obtain ⟨⟨⟨hf1, hm1⟩, hlt1⟩, hin2⟩ := hin
        apply hchain lo ?_ hin2
        rw [List.reverse_cons, chainSeg_snoc]
        refine ⟨?_, hf1, ?_, rfl⟩
        · rw [hm1]
          exact hseg
        · rw [hm1]
          exact hlt1

theorem merge_buckets_none (splits : List Split) (children : List Node) :
    merge_buckets splits children none = some (splits, children) := by
  rw [merge_buckets]

/-- The contract of `merge_buckets` with a bucketize function: matched
non-empty output no longer than the input, children drawn from the
(possibly bucketized) input children, and chain structure
preserved. -/
theorem merge_buckets_spec (f : ℚ → ℚ) (best : ℕ)
    (s0 : Split) (srest : List Split) (children : List Node)
    (hlen : (s0 :: srest).length = children.length)
    (hfeat : ∀ u ∈ s0 :: srest, u.feature = best) :
    ∃ s2 ss2 c2 cs2,
      merge_buckets (s0 :: srest) children (some f)
        = some (s2 :: ss2, c2 :: cs2) ∧
      (s2 :: ss2).length = (c2 :: cs2).length ∧
      (s2 :: ss2).length ≤ (s0 :: srest).length ∧
      (∀ c ∈ c2 :: cs2, c ∈ children ∨ ∃ v, c = .leaf v) ∧
      (chainFrom best XVal.ninf (s0 :: srest) = true →
        chainFrom best XVal.ninf (s2 :: ss2) = true) := by
  cases children with
  | nil => simp at hlen
  | cons c0 crest =>
    have hlen2 : srest.length = crest.length := by simpa using hlen
    rw [merge_buckets]
    rw [List.zip_cons_cons, List.foldl_cons]
    have hstep : mergeStep f (some ([], [])) (s0, c0)
        = some ([s0], [mergeChild f c0]) := by
      simp [mergeStep]
    rw [hstep]
    obtain ⟨r2, rs2, c2, rc2, hfold, hlenf, hle, hmem, hchain⟩ :=
      merge_fold f best (srest.zip crest) s0 [] (mergeChild f c0) [] rfl
        (hfeat s0 (by simp))
        (fun q hq =>
          hfeat q.1 (List.mem_cons_of_mem _ (List.of_mem_zip hq).1))
    rw [hfold]
    obtain ⟨s2, ss2, hs2⟩ :
        ∃ a as, (r2 :: rs2).reverse = a :: as := by
      cases hr : (r2 :: rs2).reverse with
      | nil => exact absurd (congrArg List.length hr) (by simp)
      | cons a as => exact ⟨a, as, rfl⟩
    obtain ⟨cc2, ccs2, hc2⟩ :
        ∃ a as, (c2 :: rc2).reverse = a :: as := by
      cases hr : (c2 :: rc2).reverse with
      | nil => exact absurd (congrArg List.length hr) (by simp)
      | cons a as => exact ⟨a, as, rfl⟩
    refine ⟨s2, ss2, cc2, ccs2, by simp only [hs2, hc2], ?_, ?_, ?_, ?_⟩
    · have := congrArg List.length hs2
      have := congrArg List.length hc2
      simp only [List.length_reverse] at *
      simp_all
    · have h1 := congrArg List.length hs2
      simp only [List.length_reverse] at h1
      have hziplen : (srest.zip crest).length = srest.length := by
        rw [List.length_zip, hlen2, min_self, ← hlen2]
      rw [hziplen] at hle
      simp only [List.length_cons, List.length_nil] at hle h1 ⊢
      omega
    · intro c hc
      rw [← hc2, List.mem_reverse] at hc
      rcases hmem c hc with h | ⟨p, hp, hcp⟩ | h
      · rcases List.mem_cons.mp h with rfl | h2
        · rcases mergeChild_cases f c0 with hcc | ⟨v, hcc⟩
          · refine Or.inl ?_
            rw [hcc]
            exact List.mem_cons_self c0 crest
          · exact Or.inr ⟨v, hcc⟩
        · simp at h2
      · refine Or.inl ?_
        rw [hcp]
        exact List.mem_cons_of_mem _ (List.of_mem_zip hp).2
      · exact Or.inr h
    · intro hch
      have hseg := chainFrom_seg hch
      rw [chainSeg] at hseg
      simp only [Bool.and_eq_true, beq_iff_eq, decide_eq_true_eq] at hseg
      obtain ⟨⟨⟨hf0, hm0⟩, hlt0⟩, hsegrest⟩ := hseg
      have hinit : chainSeg best XVal.ninf s0.max ([s0] : List Split).reverse
          = true := by
        rw [List.reverse_singleton, chainSeg]
        simp only [Bool.and_eq_true, beq_iff_eq, decide_eq_true_eq]
        exact ⟨⟨⟨hf0, hm0⟩, hlt0⟩, by rw [chainSeg]; simp⟩
      have hmapfst : (srest.zip crest).map (fun p => p.1) = srest :=
        List.map_fst_zip srest crest (le_of_eq hlen2)
      have hfinal := hchain XVal.ninf hinit (by rw [hmapfst]; exact hsegrest)
      rw [hs2] at hfinal
      apply chainSeg_from (by simp) hfinal

theorem WFTList_of_mem : ∀ {l : List Node}, (∀ c ∈ l, WFT c = true) →
    WFTList l = true := by
  intro l
  induction l with
  | nil => intro _; rw [WFTList]
  | cons c cs ih =>
    intro h
    rw [WFTList]
    simp only [Bool.and_eq_true]
    exact ⟨h c (by simp), ih (fun d hd => h d (List.mem_cons_of_mem _ hd))⟩

/-! ## Soundness of simplify -/

theorem simplify_sound :
    ∀ (N : ℕ) (ts : List Node) (b : Option (ℚ → ℚ)),
      treeCount (.forest ts) < N → WF (.forest ts) = true →
      ∃ R, (∀ K, treeCount (.forest ts) < K →
          simplify_fuel K (.forest ts) b = some R) ∧
        WFT R = true ∧
        (∀ g ∈ nodeFeatures R, g ∈ nodeFeatures (.forest ts)) ∧
        (b = none → ∀ env r, covers env (.forest ts) = true →
          calculate_value (.forest ts) env = .ok r →
          calculate_value R env = .ok r) := by
  intro N
  induction N with
  | zero => intro ts b h; omega
  | succ N ih =>
    intro ts b hN hWF
    have hWF2 := hWF
    rw [WF] at hWF2
    simp only [Bool.and_eq_true, Bool.not_eq_eq_eq_not, Bool.not_true,
      List.isEmpty_eq_false] at hWF2
    obtain ⟨htsne, hwftl⟩ := hWF2
    by_cases hws : get_weighted_splits (.forest ts) 1 = []
    · -- base case: empty census, collapse to the mean leaf
      have hmem_empty : ∀ t ∈ ts, get_weighted_splits t 1 = [] := by
        rw [get_weighted_splits] at hws
        exact gwsList_empty hws
      have hleaves : ∀ t ∈ ts, ∃ v, t = .leaf v := fun t ht =>
        census_empty_leaf t (WFTList_mem hwftl ht) (hmem_empty t ht)
      obtain ⟨vs, hvs, hcalc⟩ := leaves_calc ts hleaves
      refine ⟨.leaf (vs.sum / (ts.length : ℚ)), ?_, by rw [WFT], ?_, ?_⟩
      · intro K hK
        cases K with
        | zero => omega
        | succ K2 =>
          rw [simplify_fuel]
          have hempty : (get_weighted_splits (.forest ts) 1).isEmpty = true := by
            rw [hws]; rfl
          rw [if_pos hempty, collapse_leaf_forest]
          have hlen0 : ¬ ts.length = 0 := by
            intro h0
            exact htsne (List.length_eq_zero.mp h0)
          rw [if_neg hlen0]
          simp only [Option.bind_eq_bind, hvs, Option.some_bind]
          rfl
      · intro g hg
        rw [nodeFeatures] at hg
        simp at hg
      · intro _ env r _ heval
        rw [calculate_value] at heval
        obtain ⟨vs2, hvs2, hr⟩ := except_bind_ok heval
        rw [hcalc env] at hvs2
        have : vs2 = vs := (Except.ok.inj hvs2).symm
        rw [this] at hr
        rw [calculate_value]
        simpa [pure, Except.pure] using hr
    · -- recursive case
      obtain ⟨best, hbf, hchain, hsplits⟩ := find_best_split_census ts hWF hws
      obtain ⟨splits, hsplits_eq⟩ :
          ∃ l, find_best_split (get_weighted_splits (.forest ts) 1) = l :=
        ⟨_, rfl⟩
      rw [hsplits_eq] at hchain hsplits
      have key : ∀ (ss : List Split), (∀ s ∈ ss, s ∈ splits) →
          ∃ cs, (∀ K, treeCount (.forest ts) ≤ K →
              simplifyChildren K (.forest ts) b ss = some cs) ∧
            cs.length = ss.length ∧ WFTList cs = true ∧
            (∀ c ∈ cs, ∀ g ∈ nodeFeatures c, g ∈ nodeFeatures (.forest ts)) ∧
            (b = none → ∀ env r, covers env (.forest ts) = true →
              calculate_value (.forest ts) env = .ok r →
              ∀ p ∈ ss.zip cs, ∀ v : ℚ, env.lookup best = some v →
                p.1.min < XVal.fin v → XVal.fin v ≤ p.1.max →
                calculate_value p.2 env = .ok r) := by
        intro ss hss
        induction ss with
        | nil =>
          refine ⟨[], fun K _ => by rw [simplifyChildren], rfl,
            by rw [WFTList], by simp, ?_⟩
          intro _ env r _ _ p hp
          simp at hp
        | cons s ss2 ihs =>
          obtain ⟨hfeat, hlt, hnstr⟩ := hsplits s (hss s (by simp))
          obtain ⟨ts_s, hfil, hWFs, hlen_s⟩ := filter_WF s hlt ts hWF hnstr
          have htc_s : treeCount (.forest ts_s) < treeCount (.forest ts) := by
            have := (filter_treeCount s (.forest ts) (.forest ts_s) hfil).2
            apply this
            rw [hfeat]
            exact hbf
          obtain ⟨R_s, hRK, hRwft, hRfeat, hReval⟩ :=
            ih ts_s b (by omega) hWFs
          obtain ⟨cs, hcsK, hcslen, hcswft, hcsfeat, hcseval⟩ :=
            ihs (fun u hu => hss u (List.mem_cons_of_mem _ hu))
          refine ⟨R_s :: cs, ?_, by simp [hcslen], ?_, ?_, ?_⟩
          · intro K hK
            rw [simplifyChildren]
            simp only [Option.bind_eq_bind, hfil, Option.some_bind,
              hRK K (by omega), hcsK K hK, Option.some_bind]
            rfl
          · rw [WFTList]
            simp [hRwft, hcswft]
          · intro c hc g hg
            rcases List.mem_cons.mp hc with rfl | hc
            · exact (filter_features s (.forest ts) (.forest ts_s) hfil) g
                (hRfeat g hg)
            · exact hcsfeat c hc g hg
          · rintro rfl env r hcov heval p hp v hlook hv1 hv2
            rw [List.zip_cons_cons] at hp
            rcases List.mem_cons.mp hp with heqp | hp
            · have hp1 : p.1 = s := congrArg Prod.fst heqp
              have hp2 : p.2 = R_s := congrArg Prod.snd heqp
              rw [hp2]
              have hlook2 : env.lookup s.feature = some v := by
                rw [hfeat]; exact hlook
              have hevalF : calculate_value (.forest ts_s) env = .ok r :=
                filter_pres_forest s env v hlt hlook2 (hp1 ▸ hv1) (hp1 ▸ hv2)
                  ts hWF hnstr (.forest ts_s) hfil r heval
              apply hReval rfl env r ?_ hevalF
              rw [covers, List.all_eq_true]
              intro g hg
              have hsub := (filter_features s (.forest ts) (.forest ts_s) hfil)
                g (by simpa using hg)
              rw [covers, List.all_eq_true] at hcov
              exact hcov g (by simpa using hsub)
            · exact hcseval rfl env r hcov heval p hp v hlook hv1 hv2
      obtain ⟨children, hcK, hclen, hcwft, hcfeat, hceval⟩ :=
        key splits (fun s hs => hs)
      have hsplits_ne : splits ≠ [] := by
        intro h0
        rw [h0] at hchain
        simp [chainFrom] at hchain
      have hfuel_eq : ∀ K, treeCount (.forest ts) < K →
          simplify_fuel K (.forest ts) b =
            (match merge_buckets splits children b with
              | some (s1 :: s2 :: srest, cs) =>
                some (Node.tree s1.feature (s1 :: s2 :: srest) cs)
              | some ([_], c1 :: _) => some c1
              | _ => none) := by
        intro K hK
        cases K with
        | zero => omega
        | succ K2 =>
          have hempty : ¬ (get_weighted_splits (.forest ts) 1).isEmpty = true := by
            rw [List.isEmpty_eq_true]
            exact hws
          simp only [simplify_fuel]
          rw [if_neg hempty, hsplits_eq, hcK K2 (by omega)]
      -- analyze the merge output
      cases b with
      | none =>
        cases splits with
        | nil => exact absurd rfl hsplits_ne
        | cons s1 srest =>
          cases srest with
          | cons s2 srest2 =>
            -- at least two splits: a Tree is built
            have hf1 : s1.feature = best := (hsplits s1 (by simp)).1
            refine ⟨Node.tree s1.feature (s1 :: s2 :: srest2) children,
              ?_, ?_, ?_, ?_⟩
            · intro K hK
              rw [hfuel_eq K hK, merge_buckets_none]
            · rw [WFT]
              simp only [Bool.and_eq_true, beq_iff_eq]
              refine ⟨⟨?_, by rw [← hclen]⟩, hcwft⟩
              rw [hf1]
              exact hchain
            · intro g hg
              rw [nodeFeatures] at hg
              rcases List.mem_cons.mp hg with rfl | hg
              · rw [hf1]
                exact hbf
              · rcases mem_nodeFeaturesList.mp hg with ⟨c, hc, hgc⟩
                exact hcfeat c hc g hgc
            · intro _ env r hcov heval
              have hbest : (env.lookup best).isSome = true := by
                rw [covers, List.all_eq_true] at hcov
                exact hcov best hbf
              obtain ⟨v, hlook⟩ := Option.isSome_iff_exists.mp hbest
              rw [calculate_value, hf1]
              simp only [hlook]
              rw [scanSplits_eq]
              obtain ⟨c, hfm, hcm⟩ := chain_match (v := v) XVal.ninf
                (s1 :: s2 :: srest2) children hchain hclen.symm (by simp)
              simp only [hfm]
              obtain ⟨sp, hsp, hspv1, hspv2⟩ := firstMatch_pair hfm
              exact hceval rfl env r hcov heval (sp, c) hsp v hlook hspv1 hspv2
          | nil =>
            -- single split: the sole child is returned
            cases children with
            | nil => simp at hclen
            | cons c1 cs2 =>
              have hcs2 : cs2 = [] := by
                simp only [List.length_cons, List.length_nil] at hclen
                have h0 : cs2.length = 0 := by omega
                exact List.length_eq_zero.mp h0
              subst hcs2
              refine ⟨c1, ?_, ?_, ?_, ?_⟩
              · intro K hK
                rw [hfuel_eq K hK, merge_buckets_none]
              · exact WFTList_mem hcwft (by simp)
              · intro g hg
                exact hcfeat c1 (by simp) g hg
              · intro _ env r hcov heval
                have hbest : (env.lookup best).isSome = true := by
                  rw [covers, List.all_eq_true] at hcov
                  exact hcov best hbf
                obtain ⟨v, hlook⟩ := Option.isSome_iff_exists.mp hbest
                have hc1 := chainFrom_cons hchain
                have hmax : s1.max = XVal.pinf := hc1.2.2.2.1 rfl
                have hmin : s1.min = XVal.ninf := hc1.2.1
                apply hceval rfl env r hcov heval (s1, c1) (by simp) v hlook
                · rw [hmin]; simp
                · rw [hmax]; simp
      | some f =>
        cases splits with
        | nil => exact absurd rfl hsplits_ne
        | cons s1 srest =>
          obtain ⟨s2, ss2, c2, cs2, hmerge, hmlen, hmle, hmmem, hmchain⟩ :=
            merge_buckets_spec f best s1 srest children hclen.symm
              (fun u hu => (hsplits u hu).1)
          have hwft_merged : ∀ c ∈ c2 :: cs2, WFT c = true := by
            intro c hc
            rcases hmmem c hc with hcm | ⟨v, rfl⟩
            · exact WFTList_mem hcwft hcm
            · rw [WFT]
          have hfeat_merged : ∀ c ∈ c2 :: cs2, ∀ g ∈ nodeFeatures c,
              g ∈ nodeFeatures (.forest ts) := by
            intro c hc g hg
            rcases hmmem c hc with hcm | ⟨v, rfl⟩
            · exact hcfeat c hcm g hg
            · rw [nodeFeatures] at hg
              simp at hg
          cases ss2 with
          | cons s3 ss3 =>
            have hch2 : chainFrom best XVal.ninf (s2 :: s3 :: ss3) = true :=
              hmchain hchain
            have hf2 : s2.feature = best := (chainFrom_cons hch2).1
            refine ⟨Node.tree s2.feature (s2 :: s3 :: ss3) (c2 :: cs2),
              ?_, ?_, ?_, ?_⟩
            · intro K hK
              rw [hfuel_eq K hK, hmerge]
            · rw [WFT]
              simp only [Bool.and_eq_true, beq_iff_eq]
              refine ⟨⟨?_, by simpa using hmlen⟩, WFTList_of_mem hwft_merged⟩
              rw [hf2]
              exact hch2
            · intro g hg
              rw [nodeFeatures] at hg
              rcases List.mem_cons.mp hg with rfl | hg
              · rw [hf2]
                exact hbf
              · rcases mem_nodeFeaturesList.mp hg with ⟨c, hc, hgc⟩
                exact hfeat_merged c hc g hgc
            · intro hcontra
              exact absurd hcontra (by simp)
          | nil =>
            have hcs2 : cs2 = [] := by
              simp only [List.length_cons, List.length_nil] at hmlen
              have h0 : cs2.length = 0 := by omega
              exact List.length_eq_zero.mp h0
            subst hcs2
            refine ⟨c2, ?_, hwft_merged c2 (by simp), ?_, ?_⟩
            · intro K hK
              rw [hfuel_eq K hK, hmerge]
            · intro g hg
              exact hfeat_merged c2 (by simp) g hg
            · intro hcontra
              exact absurd hcontra (by simp)

/-- Standalone version of the child-construction argument inside
`simplify_sound`: on a well-formed forest, the recursive calls of
`simplify` on the filtered sub-forests all succeed. -/
theorem simplifyChildren_ok (ts : List Node) (hWF : WF (.forest ts) = true)
    (best : ℕ) (hbf : best ∈ nodeFeatures (.forest ts)) (b : Option (ℚ → ℚ)) :
    ∀ (ss : List Split), (∀ s ∈ ss, s.feature = best ∧ s.min < s.max ∧
        noStraddle s (.forest ts) = true) →
      ∃ cs, (∀ K, treeCount (.forest ts) ≤ K →
          simplifyChildren K (.forest ts) b ss = some cs) ∧
        cs.length = ss.length := by
  intro ss hss
  induction ss with
  | nil => exact ⟨[], fun K _ => by rw [simplifyChildren], rfl⟩
  | cons s ss2 ihs =>
    obtain ⟨hfeat, hlt, hnstr⟩ := hss s (by simp)
    obtain ⟨ts_s, hfil, hWFs, hlen_s⟩ := filter_WF s hlt ts hWF hnstr
    have htc_s : treeCount (.forest ts_s) < treeCount (.forest ts) := by
      have := (filter_treeCount s (.forest ts) (.forest ts_s) hfil).2
      apply this
      rw [hfeat]
      exact hbf
    obtain ⟨R_s, hRK, _, _, _⟩ :=
      simplify_sound (treeCount (.forest ts_s) + 1) ts_s b (by omega) hWFs
    obtain ⟨cs, hcsK, hcslen⟩ := ihs (fun u hu => hss u (List.mem_cons_of_mem _ hu))
    refine ⟨R_s :: cs, ?_, by simp [hcslen]⟩
    intro K hK
    rw [simplifyChildren]
    simp only [Option.bind_eq_bind, hfil, Option.some_bind, hRK K (by omega),
      hcsK K hK, Option.some_bind]
    rfl

/-- When the best-split list has at least two entries, `simplify`
without a bucketize function returns a Tree whose feature and splits
are exactly those of the best-split list; only the children require
further computation. -/
theorem simplify_tree_shape (ts : List Node) (s1 s2 : Split) (rest : List Split)
    (hWF : WF (.forest ts) = true)
    (hws : get_weighted_splits (.forest ts) 1 ≠ [])
    (hfb : find_best_split (get_weighted_splits (.forest ts) 1)
      = s1 :: s2 :: rest) :
    ∃ cs, simplify (.forest ts) none
      = some (.tree s1.feature (s1 :: s2 :: rest) cs) := by
  obtain ⟨best, hbf, hchain, hsplits⟩ := find_best_split_census ts hWF hws
  rw [hfb] at hchain hsplits
  obtain ⟨cs, hcK, hclen⟩ :=
    simplifyChildren_ok ts hWF best hbf none (s1 :: s2 :: rest)
      (fun s hs => hsplits s hs)
  refine ⟨cs, ?_⟩
  rw [simplify]
  have hempty : ¬ (get_weighted_splits (.forest ts) 1).isEmpty = true := by
    rw [List.isEmpty_eq_true]
    exact hws
  simp only [simplify_fuel]
  rw [if_neg hempty, hfb, hcK _ (by omega)]
  simp only [merge_buckets_none]

set_option maxHeartbeats 3000000 in
theorem wsC1_eq : get_weighted_splits (.forest tsC1) 1 = wsC1 := by
  norm_num [tsC1, T2x, make_tree, mkSplits, get_weighted_splits, gwsList, wsC1]

theorem wsC1_features :
    wsC1.map (fun p => p.2.feature) = [1, 1, 2, 2, 2, 2, 2, 2, 2] := by
  rw [wsC1]
  simp only [List.map_cons, List.map_nil]

theorem wsC1_dedup : dedupFirst (wsC1.map (fun p => p.2.feature)) = [1, 2] := by
  rw [wsC1_features]
  norm_num [dedupFirst]

theorem wsC1_w1 : weightFor wsC1 1 = 2 := by
  rw [weightFor, wsC1]
  simp only [List.filter]
  norm_num

theorem wsC1_w2 : weightFor wsC1 2 = 7 / 2 := by
  rw [weightFor, wsC1]
  simp only [List.filter]
  norm_num

theorem wsC1_E1 : endpointsFor wsC1 1 = [.ninf, .fin 0, .fin 0, .pinf] := by
  rw [endpointsFor, wsC1]
  simp only [List.filter]
  norm_num [List.foldr_cons, List.foldr_nil]

theorem wsC1_E2 : endpointsFor wsC1 2 =
    [.ninf, .fin 1, .fin 1, .fin 2, .fin 2, .fin 3, .fin 3, .fin 4,
     .fin 4, .fin 5, .fin 5, .fin 6, .fin 6, .pinf] := by
  rw [endpointsFor, wsC1]
  simp only [List.filter]
  norm_num [List.foldr_cons, List.foldr_nil]

theorem wsC1_dedup1 : (endpointsFor wsC1 1).dedup = [.ninf, .fin 0, .pinf] := by
  rw [wsC1_E1,
    List.dedup_cons_of_not_mem (by simp), List.dedup_cons_of_mem (by simp),
    List.dedup_cons_of_not_mem (by simp), List.dedup_cons_of_not_mem (by simp),
    List.dedup_nil]

theorem wsC1_dedup2 : (endpointsFor wsC1 2).dedup = cutsC1 := by
  rw [wsC1_E2, cutsC1,
    List.dedup_cons_of_not_mem (by simp), List.dedup_cons_of_mem (by simp),
    List.dedup_cons_of_not_mem (by simp), List.dedup_cons_of_mem (by simp),
    List.dedup_cons_of_not_mem (by simp), List.dedup_cons_of_mem (by simp),
    List.dedup_cons_of_not_mem (by simp), List.dedup_cons_of_mem (by simp),
    List.dedup_cons_of_not_mem (by simp), List.dedup_cons_of_mem (by simp),
    List.dedup_cons_of_not_mem (by simp), List.dedup_cons_of_mem (by simp),
    List.dedup_cons_of_not_mem (by simp), List.dedup_cons_of_not_mem (by simp),
    List.dedup_nil]

theorem wsC1_n1 : numCuts wsC1 1 = 3 := by
  rw [numCuts, wsC1_dedup1]
  rfl

theorem wsC1_n2 : numCuts wsC1 2 = 8 := by
  rw [numCuts, wsC1_dedup2, cutsC1]
  rfl

theorem wsC1_saving : savingGt wsC1 2 1 = true := by
  rw [savingGt, wsC1_w2, wsC1_w1, wsC1_n2, wsC1_n1]
  have hd : (7 / 2 - 2 : ℚ) = 3 / 2 := by norm_num
  rw [hd, logDiffLt]
  have hnum : (3 / 2 : ℚ).num = 3 := by norm_num
  have hden : (3 / 2 : ℚ).den = 2 := by norm_num
  rw [hnum, hden]
  simp only [if_pos (by norm_num : (0 : ℤ) ≤ 3)]
  decide

theorem wsC1_best : maxByKey (savingGt wsC1) 1 [2] = 2 := by
  rw [maxByKey, wsC1_saving, if_pos rfl, maxByKey]

theorem cutsC1_sorted :
    List.insertionSort (fun a b => a ≤ b) cutsC1 = cutsC1 := by
  apply List.Sorted.insertionSort_eq
  rw [cutsC1]
  simp only [List.sorted_cons, List.mem_cons]
  norm_num

theorem fbsC1 : find_best_split wsC1 = splitsC1 := by
  rw [find_best_split, wsC1_dedup]
  simp only []
  rw [wsC1_best, wsC1_dedup2, cutsC1_sorted, cutsC1]
  simp only [List.tail_cons, List.zip_cons_cons, List.zip_nil_right,
    List.map_cons, List.map_nil, splitsC1]

theorem FC1_WF : WF (.forest tsC1) = true := by
  norm_num [tsC1, T2x, WF, WFT, WFTList, make_tree, mkSplits, chainFrom]

theorem FC1_eval : calculate_value (.forest tsC1) envC1 = .ok 0 := by
  norm_num [tsC1, T2x, make_tree, mkSplits, envC1, calculate_value, calcList,
    scanSplits, List.lookup, Bind.bind, Except.bind, pure, Except.pure]

theorem FC1_shape : ∃ cs, simplify (.forest tsC1) none
    = some (.tree 2 splitsC1 cs) := by
  have hws : get_weighted_splits (.forest tsC1) 1 ≠ [] := by
    rw [wsC1_eq, wsC1]
    simp
  have hfb : find_best_split (get_weighted_splits (.forest tsC1) 1)
      = (⟨2, .ninf, .fin 1⟩ : Split) :: (⟨2, .fin 1, .fin 2⟩ : Split) ::
        [⟨2, .fin 2, .fin 3⟩, ⟨2, .fin 3, .fin 4⟩, ⟨2, .fin 4, .fin 5⟩,
         ⟨2, .fin 5, .fin 6⟩, ⟨2, .fin 6, .pinf⟩] := by
    rw [wsC1_eq, fbsC1, splitsC1]
  obtain ⟨cs, h⟩ := simplify_tree_shape tsC1 _ _ _ FC1_WF hws hfb
  exact ⟨cs, by rw [h, splitsC1]⟩

theorem FC1_simplify_eval :
    (simplify (.forest tsC1) none).map (fun R => calculate_value R envC1)
      = some (.error (.missingFeature 2)) := by
  obtain ⟨cs, h⟩ := FC1_shape
  rw [h, Option.map_some']
  have hlk : List.lookup 2 envC1 = none := rfl
  simp only [calculate_value, hlk]

/-! ## Claim C1 -/

/-- C1 (counterexample): the claim is false as stated.  The assignment
`envC1` supplies every feature needed on the path `FC1`'s evaluation
visits (the evaluation succeeds, returning 0, and only feature 1 is
consulted), yet `simplify FC1` — which hoists feature 2 to the root,
since feature 2 dominates the census of the untaken branch — evaluates
to a `missingFeature 2` error under the same assignment, not to 0. -/
theorem C1_path_cover_cex :
    WF FC1 = true ∧
    calculate_value FC1 envC1 = Except.ok 0 ∧
    (simplify FC1 none).map (fun R => calculate_value R envC1)
      = some (Except.error (EvalErr.missingFeature 2)) := by
  refine ⟨?_, ?_, ?_⟩
  · simp only [FC1]
    exact FC1_WF
  · simp only [FC1]
    exact FC1_eval
  · simp only [FC1]
    exact FC1_simplify_eval

/-- C1 (amended): for a well-formed forest and an assignment that
covers every feature appearing anywhere in the forest (not only those
on the visited paths), `simplify` with no bucketize function succeeds
and its output evaluates to exactly the original forest's value. -/
theorem C1_simplify_equiv (ts : List Node) (env : Env) (r : ℚ)
    (hWF : WF (.forest ts) = true)
    (hcov : covers env (.forest ts) = true)
    (heval : calculate_value (.forest ts) env = .ok r) :
    ∃ R, simplify (.forest ts) none = some R ∧
      calculate_value R env = .ok r := by
  obtain ⟨R, hRK, _, _, hpres⟩ :=
    simplify_sound (treeCount (.forest ts) + 1) ts none (by omega) hWF
  rw [simplify]
  exact ⟨R, hRK _ (by omega), hpres rfl env r hcov heval⟩

/-- C1 witness: the amended equivalence at a concrete forest. -/
theorem C1_simplify_equiv_witness :
    WF (.forest [.leaf 0]) = true ∧
    covers [] (.forest [.leaf 0]) = true ∧
    calculate_value (.forest [.leaf 0]) [] = .ok 0 ∧
    ∃ R, simplify (.forest [.leaf 0]) none = some R ∧
      calculate_value R [] = .ok 0 := by
  have h1 : WF (.forest [.leaf 0]) = true := by
    norm_num [WF, WFT, WFTList]
  have h2 : covers [] (.forest [.leaf 0]) = true := by
    norm_num [covers, nodeFeatures, nodeFeaturesList]
  have h3 : calculate_value (.forest [.leaf 0]) [] = .ok 0 := by
    norm_num [calculate_value, calcList, Bind.bind, Except.bind, pure,
      Except.pure]
  exact ⟨h1, h2, h3, C1_simplify_equiv [.leaf 0] [] 0 h1 h2 h3⟩

theorem FN_WF : WF (.forest tsN) = true := by
  norm_num [tsN, TN, WF, WFT, WFTList, make_tree, mkSplits, chainFrom]

theorem FN_treeCount : treeCount (.forest tsN) = 2 := by
  norm_num [tsN, TN, make_tree, treeCount, treeCountList]

theorem FN_features : (nodeFeatures (.forest tsN)).dedup = [1] := by
  have h : nodeFeatures (.forest tsN) = [1, 1] := by
    norm_num [tsN, TN, make_tree, nodeFeatures, nodeFeaturesList]
  rw [h, List.dedup_cons_of_mem (by simp),
    List.dedup_cons_of_not_mem (by simp), List.dedup_nil]

theorem wsN_eq : get_weighted_splits (.forest tsN) 1 = wsN := by
  norm_num [tsN, TN, make_tree, mkSplits, get_weighted_splits, gwsList, wsN]

theorem fbsN : find_best_split wsN = splitsN := by
  have hfeat : dedupFirst (wsN.map (fun p => p.2.feature)) = [1] := by
    have h : wsN.map (fun p => p.2.feature) = [1, 1, 1, 1] := by
      rw [wsN]
      simp only [List.map_cons, List.map_nil]
    rw [h]
    norm_num [dedupFirst]
  have hE : endpointsFor wsN 1 =
      [.ninf, .fin 0, .fin 0, .pinf, .ninf, .fin (-1), .fin (-1), .pinf] := by
    rw [endpointsFor, wsN]
    simp only [List.filter]
    norm_num [List.foldr_cons, List.foldr_nil]
  have hdedup : (endpointsFor wsN 1).dedup =
      [.fin 0, .ninf, .fin (-1), .pinf] := by
    rw [hE,
      List.dedup_cons_of_mem (by simp), List.dedup_cons_of_mem (by simp),
      List.dedup_cons_of_not_mem (by simp), List.dedup_cons_of_mem (by simp),
      List.dedup_cons_of_not_mem (by simp), List.dedup_cons_of_mem (by simp),
      List.dedup_cons_of_not_mem (by simp), List.dedup_cons_of_not_mem (by simp),
      List.dedup_nil]
  have hsort : List.insertionSort (fun a b => a ≤ b)
      [XVal.fin 0, XVal.ninf, XVal.fin (-1), XVal.pinf]
      = [XVal.ninf, XVal.fin (-1), XVal.fin 0, XVal.pinf] := by
    simp [List.insertionSort, List.orderedInsert]
  rw [find_best_split, hfeat]
  simp only [maxByKey]
  rw [hdedup, hsort]
  simp only [List.tail_cons, List.zip_cons_cons, List.zip_nil_right,
    List.map_cons, List.map_nil, splitsN]

theorem FN_filter1 : filter_by_split (.forest tsN) ⟨1, .ninf, .fin (-1)⟩
    = some (.forest [TN]) := by
  norm_num [tsN, TN, make_tree, mkSplits, filter_by_split, filterList,
    findContaining, Bind.bind, Option.bind, pure]

theorem wsI_eq : get_weighted_splits (.forest [TN]) 1 = wsI := by
  norm_num [TN, make_tree, mkSplits, get_weighted_splits, gwsList, wsI]

theorem fbsI : find_best_split wsI =
    [⟨1, .ninf, .fin (-1)⟩, ⟨1, .fin (-1), .pinf⟩] := by
  have hfeat : dedupFirst (wsI.map (fun p => p.2.feature)) = [1] := by
    have h : wsI.map (fun p => p.2.feature) = [1, 1] := by
      rw [wsI]
      simp only [List.map_cons, List.map_nil]
    rw [h]
    norm_num [dedupFirst]
  have hE : endpointsFor wsI 1 =
      [.ninf, .fin (-1), .fin (-1), .pinf] := by
    rw [endpointsFor, wsI]
    simp only [List.filter]
    norm_num [List.foldr_cons, List.foldr_nil]
  have hdedup : (endpointsFor wsI 1).dedup =
      [.ninf, .fin (-1), .pinf] := by
    rw [hE,
      List.dedup_cons_of_not_mem (by simp), List.dedup_cons_of_mem (by simp),
      List.dedup_cons_of_not_mem (by simp), List.dedup_cons_of_not_mem (by simp),
      List.dedup_nil]
  have hsort : List.insertionSort (fun a b => a ≤ b)
      [XVal.ninf, XVal.fin (-1), XVal.pinf]
      = [XVal.ninf, XVal.fin (-1), XVal.pinf] := by
    simp [List.insertionSort, List.orderedInsert]
  rw [find_best_split, hfeat]
  simp only [maxByKey]
  rw [hdedup, hsort]
  simp only [List.tail_cons, List.zip_cons_cons, List.zip_nil_right,
    List.map_cons, List.map_nil]

theorem FN_filterI : filter_by_split (.forest [TN]) ⟨1, .ninf, .fin (-1)⟩
    = some (.forest [.leaf 1]) := by
  norm_num [TN, make_tree, mkSplits, filter_by_split, filterList,
    findContaining, Bind.bind, Option.bind, pure]

theorem FN_inner_fuel1 : simplify_fuel 1 (.forest [TN]) none = none := by
  have hne : ¬ (get_weighted_splits (.forest [TN]) 1).isEmpty = true := by
    rw [wsI_eq, wsI]
    simp
  have hsc : simplifyChildren 0 (.forest [TN]) none
      [⟨1, .ninf, .fin (-1)⟩, ⟨1, .fin (-1), .pinf⟩] = none := by
    rw [simplifyChildren]
    simp only [Option.bind_eq_bind, FN_filterI, Option.some_bind,
      simplify_fuel, Option.none_bind]
  have h1 : (1 : ℕ) = 0 + 1 := rfl
  rw [h1, simplify_fuel, if_neg hne]
  rw [wsI_eq, fbsI]
  simp only [hsc]

theorem FN_children_none :
    simplifyChildren 1 (.forest tsN) none splitsN = none := by
  rw [splitsN, simplifyChildren]
  simp only [Option.bind_eq_bind, FN_filter1, Option.some_bind,
    FN_inner_fuel1, Option.none_bind]

theorem FN_fuel2 : simplify_fuel 2 (.forest tsN) none = none := by
  have hne : ¬ (get_weighted_splits (.forest tsN) 1).isEmpty = true := by
    rw [wsN_eq, wsN]
    simp
  have h2 : (2 : ℕ) = 1 + 1 := rfl
  rw [h2, simplify_fuel, if_neg hne]
  rw [wsN_eq, fbsN]
  simp only [FN_children_none]

/-! ## Claim C2 -/

/-- C2 (counterexample): the claim's reason and bound are both false.
In the well-formed forest `FN` the only feature is 1, yet the first
best split, after filtering, leaves a sub-forest whose census still
contains feature 1 (a matching Tree's child is returned by
`filter_by_split` without being filtered itself), and `simplify`
needs recursion depth 3: fuel 2 — one level per distinct feature plus
the base level — fails where fuel 3 succeeds. -/
theorem C2_feature_depth_cex :
    WF FN = true ∧
    (nodeFeatures FN).dedup = [1] ∧
    (∃ s ∈ find_best_split (get_weighted_splits FN 1), ∃ F2,
        filter_by_split FN s = some F2 ∧
        s.feature ∈ (get_weighted_splits F2 1).map (fun p => p.2.feature)) ∧
    simplify_fuel 2 FN none = none ∧
    (simplify_fuel 3 FN none).isSome = true := by
  refine ⟨?_, ?_, ?_, ?_, ?_⟩
  · simp only [FN]
    exact FN_WF
  · simp only [FN]
    exact FN_features
  · simp only [FN]
    refine ⟨⟨1, .ninf, .fin (-1)⟩, ?_, .forest [TN], FN_filter1, ?_⟩
    · rw [wsN_eq, fbsN, splitsN]
      simp
    · rw [wsI_eq, wsI]
      simp
  · simp only [FN]
    exact FN_fuel2
  · simp only [FN]
    obtain ⟨R, hRK, _, _, _⟩ :=
      simplify_sound 3 tsN none (by rw [FN_treeCount]; omega) FN_WF
    rw [hRK 3 (by rw [FN_treeCount]; omega)]
    rfl

/-- C2 (amended): `simplify` does terminate on every well-formed
forest, but the recursion depth is bounded by the number of Tree
nodes (`treeCount`), not by the number of distinct features: every
fuel above `treeCount` yields the same defined result. -/
theorem C2_terminates (ts : List Node) (b : Option (ℚ → ℚ))
    (hWF : WF (.forest ts) = true) :
    ∃ R, simplify (.forest ts) b = some R ∧
      ∀ K, treeCount (.forest ts) < K →
        simplify_fuel K (.forest ts) b = some R := by
  obtain ⟨R, hRK, _, _, _⟩ :=
    simplify_sound (treeCount (.forest ts) + 1) ts b (by omega) hWF
  exact ⟨R, by rw [simplify]; exact hRK _ (by omega), hRK⟩

/-- C2 witness: termination at a concrete forest. -/
theorem C2_terminates_witness :
    WF (.forest [.leaf 5]) = true ∧
    ∃ R, simplify (.forest [.leaf 5]) none = some R ∧
      ∀ K, treeCount (.forest [.leaf 5]) < K →
        simplify_fuel K (.forest [.leaf 5]) none = some R := by
  have h1 : WF (.forest [.leaf 5]) = true := by
    norm_num [WF, WFT, WFTList]
  exact ⟨h1, C2_terminates [.leaf 5] none h1⟩

theorem findContaining_pair {s : Split} :
    ∀ {ss : List Split} {cs : List Node} {c : Node},
      findContaining s ss cs = some c →
      ∃ t, (t, c) ∈ ss.zip cs ∧ t.min ≤ s.min ∧ s.max ≤ t.max := by
  intro ss
  induction ss with
  | nil => intro cs c h; simp [findContaining] at h
  | cons s0 rest ih =>
    intro cs c h
    cases cs with
    | nil => simp [findContaining] at h
    | cons c0 cs =>
      rw [findContaining] at h
      by_cases hm : s0.min ≤ s.min ∧ s.max ≤ s0.max
      · rw [if_pos hm] at h
        exact ⟨s0, by simp [← Option.some.inj h], hm.1, hm.2⟩
      · rw [if_neg hm] at h
        rcases ih h with ⟨t, ht, h1, h2⟩
        exact ⟨t, by simp [ht], h1, h2⟩

/-! ## Claim C3 -/

/-- C3: `filter_by_split` preserves shape and meaning.  For a
non-degenerate split `s` whose endpoints refine every boundary on its
feature in the node (`noStraddle`): a Leaf is returned unchanged; a
well-formed Forest keeps its member count, with members filtered
pointwise in order; a Tree on another feature keeps its feature and
splits, with exactly its children list filtered; a well-formed Tree
on `s.feature` is replaced by the child paired with the unique chain
split containing `s`'s interval; and for every node — Leaf, Tree or
Forest, well-formed as a tree node (`WFT`) or as a forest (`WF`) —
and every assignment consistent with `s` on the needed paths,
evaluation is unchanged. -/
theorem C3_filter_shape (s : Split) (hmm : s.min < s.max) :
    (∀ w : ℚ, filter_by_split (.leaf w) s = some (.leaf w)) ∧
    (∀ ts, WF (.forest ts) = true → noStraddle s (.forest ts) = true →
      ∃ ts2, filterList ts s = some ts2 ∧
        filter_by_split (.forest ts) s = some (.forest ts2) ∧
        ts2.length = ts.length) ∧
    (∀ f ss cs, f ≠ s.feature →
      filter_by_split (.tree f ss cs) s
        = (filterList cs s).map (fun cs2 => Node.tree f ss cs2)) ∧
    (∀ f ss cs, f = s.feature → WFT (.tree f ss cs) = true →
      noStraddle s (.tree f ss cs) = true →
      ∃ t c, (t, c) ∈ ss.zip cs ∧ t.min ≤ s.min ∧ s.max ≤ t.max ∧
        filter_by_split (.tree f ss cs) s = some c ∧
        (∀ q ∈ ss, q.min ≤ s.min → s.max ≤ q.max → q = t)) ∧
    (∀ (n m : Node) (env : Env) (v r : ℚ),
      (WFT n || WF n) = true → noStraddle s n = true →
      env.lookup s.feature = some v →
      s.min < XVal.fin v → XVal.fin v ≤ s.max →
      filter_by_split n s = some m →
      calculate_value n env = .ok r → calculate_value m env = .ok r) := by
  refine ⟨?_, ?_, ?_, ?_, ?_⟩
  · intro w
    rw [filter_by_split]
  · intro ts hwf hns
    rw [WF] at hwf
    simp only [Bool.and_eq_true, Bool.not_eq_eq_eq_not, Bool.not_true,
      List.isEmpty_eq_false] at hwf
    obtain ⟨l2, hl2, hwl2, hlen⟩ := filterList_ok s hmm ts hwf.2
      (fun c hc => noStraddle_forest_member hns hc)
    refine ⟨l2, hl2, ?_, hlen⟩
    rw [filter_by_split]
    simp [hl2]
  · intro f ss cs hf
    rw [filter_by_split, if_neg hf]
    cases h : filterList cs s with
    | none => simp [h]
    | some cs2 => simp [h]
  · intro f ss cs hf hwf hns
    rw [WFT] at hwf
    simp only [Bool.and_eq_true, beq_iff_eq] at hwf
    obtain ⟨⟨hch, hlen⟩, hwfl⟩ := hwf
    have hfeat : ∀ t ∈ ss, t.feature = s.feature := fun t ht =>
      hf ▸ chainFrom_features hch t ht
    have hbd := noStraddle_tree_bounds hns hfeat
    obtain ⟨c, hfc, hcm, -⟩ :=
      chain_scan hmm XVal.ninf ss cs hch (by simpa using hlen)
        (by simp) hbd
    obtain ⟨t, htm, ht1, ht2⟩ := findContaining_pair hfc
    refine ⟨t, c, htm, ht1, ht2, ?_, ?_⟩
    · rw [filter_by_split]
      simp [hf, hfc]
    · intro q hq hq1 hq2
      exact chain_contains_unique hmm hch q hq t (List.of_mem_zip htm).1
        ⟨hq1, hq2⟩ ⟨ht1, ht2⟩
  · intro n m env v r hwf hns henv hv1 hv2 hfil heval
    rw [Bool.or_eq_true] at hwf
    rcases hwf with hwf | hwf
    · exact filter_pres s env v hmm henv hv1 hv2 n hwf hns m hfil r heval
    · cases n with
      | leaf w => simp [WF] at hwf
      | tree f ss cs => simp [WF] at hwf
      | forest ts =>
        exact filter_pres_forest s env v hmm henv hv1 hv2 ts hwf hns
          m hfil r heval

/-- C3 witness: the shape contract at a concrete non-degenerate split;
a Leaf passes through `filter_by_split` unchanged. -/
theorem C3_filter_shape_witness :
    (⟨1, XVal.ninf, XVal.fin 0⟩ : Split).min <
      (⟨1, XVal.ninf, XVal.fin 0⟩ : Split).max ∧
    filter_by_split (.leaf 7) ⟨1, XVal.ninf, XVal.fin 0⟩ = some (.leaf 7) :=
  ⟨by simp, (C3_filter_shape ⟨1, XVal.ninf, XVal.fin 0⟩ (by simp)).1 7⟩

/-! ## Missing-feature characterization -/

mutual
/-- A `missingFeature g` error can only arise from a visited Tree whose
feature `g` is absent from the assignment. -/
theorem eval_missing (g : ℕ) :
    ∀ (n : Node) (env : Env),
      calculate_value n env = .error (.missingFeature g) →
      env.lookup g = none
  | .leaf v, env, h => by
    rw [calculate_value] at h
    exact absurd h (by simp)
  | .tree f ss cs, env, h => by
    rw [calculate_value] at h
    cases hlk : env.lookup f with
    | none =>
      simp only [hlk, Except.error.injEq, EvalErr.missingFeature.injEq] at h
      rw [← h]
      exact hlk
    | some v =>
      simp only [hlk] at h
      rw [scanSplits_eq] at h
      cases hfm : firstMatch v ss cs with
      | none =>
        simp only [hfm] at h
        exact absurd h (by simp)
      | some c =>
        simp only [hfm] at h
        exact eval_missing g c env h
  | .forest ts, env, h => by
    rw [calculate_value] at h
    cases hcl : calcList ts env with
    | error e =>
      rw [hcl] at h
      simp only [Bind.bind, Except.bind, Except.error.injEq] at h
      exact evalList_missing g ts env (by rw [hcl, h])
    | ok vs =>
      rw [hcl] at h
      simp [Bind.bind, Except.bind, pure, Except.pure] at h
termination_by n => (sizeOf n, 0)
decreasing_by
  all_goals simp_wf
  all_goals try omega
  all_goals have := List.sizeOf_lt_of_mem (firstMatch_mem hfm)
  all_goals omega

theorem evalList_missing (g : ℕ) :
    ∀ (l : List Node) (env : Env),
      calcList l env = .error (.missingFeature g) →
      env.lookup g = none
  | [], env, h => by
    rw [calcList] at h
    exact absurd h (by simp)
  | n :: ns, env, h => by
    rw [calcList] at h
    cases hn : calculate_value n env with
    | error e =>
      rw [hn] at h
      simp only [Bind.bind, Except.bind, Except.error.injEq] at h
      exact eval_missing g n env (by rw [hn, h])
    | ok v =>
      rw [hn] at h
      simp only [Bind.bind, Except.bind] at h
      cases hns : calcList ns env with
      | error e =>
        rw [hns] at h
        simp only [Except.error.injEq] at h
        exact evalList_missing g ns env (by rw [hns, h])
      | ok vs =>
        rw [hns] at h
        simp [pure, Except.pure] at h
termination_by l => (sizeOf l, 1)
end

/-! ## Claim C4 -/

/-- C4: branch selection semantics of the evaluator.  A Leaf returns
its value unconditionally; a Tree looks up its feature and recurses
into the child of the first split (in order) whose half-open-above
interval `min < value <= max` contains the value (`.error .unexpected`
when none does); a Forest returns the mean of its members' values; and
the concrete Tree on feature 1 with cut point `1/2` and children
`[Leaf (1/4), Leaf (3/4)]` evaluates to `1/4` at `-10`, to `1/4` at
the cut point `1/2` itself (ties take the lower branch), and to `3/4`
at `7`. -/
theorem C4_evaluator_semantics :
    (∀ (w : ℚ) (env : Env), calculate_value (.leaf w) env = .ok w) ∧
    (∀ (f : ℕ) (ss : List Split) (cs : List Node) (env : Env) (v : ℚ),
      env.lookup f = some v →
      calculate_value (.tree f ss cs) env =
        match firstMatch v ss cs with
        | some c => calculate_value c env
        | none => .error .unexpected) ∧
    (∀ (s : Split) (ss : List Split) (c : Node) (cs : List Node) (v : ℚ),
      firstMatch v (s :: ss) (c :: cs) =
        if s.min < XVal.fin v ∧ XVal.fin v ≤ s.max then some c
        else firstMatch v ss cs) ∧
    (∀ (ts : List Node) (env : Env) (vs : List ℚ),
      calcList ts env = .ok vs →
      calculate_value (.forest ts) env = .ok (vs.sum / (ts.length : ℚ))) ∧
    calculate_value (make_tree 1 [1/2] [.leaf (1/4), .leaf (3/4)])
      [(1, -10)] = .ok (1/4) ∧
    calculate_value (make_tree 1 [1/2] [.leaf (1/4), .leaf (3/4)])
      [(1, 1/2)] = .ok (1/4) ∧
    calculate_value (make_tree 1 [1/2] [.leaf (1/4), .leaf (3/4)])
      [(1, 7)] = .ok (3/4) := by
  refine ⟨?_, ?_, ?_, ?_, ?_, ?_, ?_⟩
  · intro w env
    rw [calculate_value]
  · intro f ss cs env v hl
    rw [calculate_value]
    simp only [hl]
    exact scanSplits_eq v env ss cs
  · intro s ss c cs v
    rw [firstMatch]
  · intro ts env vs h
    rw [calculate_value, h]
    simp [Bind.bind, Except.bind, pure, Except.pure]
  · norm_num [make_tree, mkSplits, calculate_value, scanSplits, List.lookup]
  · norm_num [make_tree, mkSplits, calculate_value, scanSplits, List.lookup]
  · norm_num [make_tree, mkSplits, calculate_value, scanSplits, List.lookup]

/-! ## Claim C5 -/

/-- C5: evaluation fails with `missingFeature` exactly for a feature of
a Tree actually visited on the evaluation path that is absent from the
assignment.  A visited Tree with an unassigned feature fails at once; a
`missingFeature g` error always means `g` is absent from the
assignment; and lazily, an assignment lacking only features on
untraversed branches still evaluates: the concrete tree whose upper
branch splits on the unassigned feature 2 evaluates fine when the
assigned feature 1 selects the lower branch, while a tree on feature 1
against an assignment holding only feature 2 fails with
`missingFeature 1`. -/
theorem C5_missing_feature :
    (∀ (f : ℕ) (ss : List Split) (cs : List Node) (env : Env),
      env.lookup f = none →
      calculate_value (.tree f ss cs) env = .error (.missingFeature f)) ∧
    (∀ (g : ℕ) (n : Node) (env : Env),
      calculate_value n env = .error (.missingFeature g) →
      env.lookup g = none) ∧
    calculate_value (make_tree 1 [1/2] [.leaf (1/4), .leaf (3/4)])
      [(2, 0)] = .error (.missingFeature 1) ∧
    calculate_value
      (make_tree 1 [0] [.leaf 5, make_tree 2 [0] [.leaf 6, .leaf 7]])
      [(1, -1)] = .ok 5 := by
  refine ⟨?_, ?_, ?_, ?_⟩
  · intro f ss cs env hl
    rw [calculate_value]
    simp only [hl]
  · intro g n env h
    exact eval_missing g n env h
  · simp [make_tree, mkSplits, calculate_value, List.lookup]
  · norm_num [make_tree, mkSplits, calculate_value, scanSplits, List.lookup]

/-! ## Claim C6 -/

/-- C6: on a non-empty all-leaf forest, `collapse_leaf_forest` returns
the Leaf holding the unweighted arithmetic mean of the members'
values, and under every assignment both the original forest and that
Leaf evaluate to exactly this mean. -/
theorem C6_collapse_mean (ts : List Node) (hne : ts ≠ [])
    (hlv : ∀ t ∈ ts, ∃ v, t = .leaf v) :
    ∃ vs, leafValues ts = some vs ∧
      collapse_leaf_forest (.forest ts)
        = some (.leaf (vs.sum / (ts.length : ℚ))) ∧
      ∀ env, calculate_value (.forest ts) env
          = .ok (vs.sum / (ts.length : ℚ)) ∧
        calculate_value (.leaf (vs.sum / (ts.length : ℚ))) env
          = .ok (vs.sum / (ts.length : ℚ)) := by
  obtain ⟨vs, hvs, hcalc⟩ := leaves_calc ts hlv
  refine ⟨vs, hvs, ?_, fun env => ⟨?_, by rw [calculate_value]⟩⟩
  · rw [collapse_leaf_forest,
      if_neg (fun h => hne (List.length_eq_zero.mp h))]
    simp only [Option.bind_eq_bind, hvs, Option.some_bind]
    rfl
  · rw [calculate_value]
    simp only [Bind.bind, Except.bind, hcalc env]
    rfl

/-- C6 witness: the mean of the two-leaf forest `[1, 2]` is `3/2`. -/
theorem C6_collapse_mean_witness :
    collapse_leaf_forest (.forest [Node.leaf 1, Node.leaf 2])
      = some (.leaf (3/2)) := by
  obtain ⟨vs, hvs, hcol, -⟩ := C6_collapse_mean [Node.leaf 1, Node.leaf 2]
    (by simp)
    (by
      intro t ht
      simp only [List.mem_cons, List.not_mem_nil, or_false] at ht
      rcases ht with rfl | rfl
      exacts [⟨1, rfl⟩, ⟨2, rfl⟩])
  have hv : vs = [1, 2] := by
    have h2 : leafValues [Node.leaf 1, Node.leaf 2] = some [1, 2] := rfl
    rw [h2] at hvs
    exact (Option.some.inj hvs).symm
  rw [hcol, hv]
  norm_num

/-! ## Claim C7 -/

/-- C7: `find_best_split` on a non-empty census returns splits for
exactly one feature — one maximizing census weight minus log base 2 of
the number of distinct recorded endpoints — formed by pairing adjacent
members of the sorted distinct endpoint list of that feature; and on
the census of a well-formed forest the returned splits form a total
contiguous chain spanning `-infinity..+infinity`. -/
theorem C7_best_split (ws : List (ℚ × Split)) (hne : ws ≠ []) :
    (∃ best cuts,
      best ∈ ws.map (fun p => p.2.feature) ∧
      (∀ g ∈ ws.map (fun p => p.2.feature),
        (weightFor ws g : ℝ) - Real.logb 2 (numCuts ws g) ≤
          (weightFor ws best : ℝ) - Real.logb 2 (numCuts ws best)) ∧
      List.Pairwise (· < ·) cuts ∧
      (∀ e, e ∈ cuts ↔ e ∈ endpointsFor ws best) ∧
      find_best_split ws =
        (cuts.zip cuts.tail).map (fun p => ⟨best, p.1, p.2⟩) ∧
      (∀ s ∈ find_best_split ws, s.feature = best)) ∧
    (∀ ts, ws = get_weighted_splits (.forest ts) 1 →
      WF (.forest ts) = true →
      ∃ b, b ∈ nodeFeatures (.forest ts) ∧
        chainFrom b XVal.ninf (find_best_split ws) = true) := by
  constructor
  · obtain ⟨best, cuts, hmem, hmax, hpw, hcuts, heq⟩ :=
      find_best_split_spec ws hne
    refine ⟨best, cuts, hmem, hmax, hpw, hcuts, heq, ?_⟩
    intro s hs
    rw [heq] at hs
    rcases List.mem_map.mp hs with ⟨q, hq, hsq⟩
    rw [← hsq]
  · intro ts hws hWF
    obtain ⟨b, hbf, hchain, -⟩ :=
      find_best_split_census ts hWF (hws ▸ hne)
    exact ⟨b, hbf, hws ▸ hchain⟩

/-- C7 witness: the contract at the singleton census of one full-range
split on feature 3. -/
theorem C7_best_split_witness :
    ([((1 : ℚ), (⟨3, .ninf, .pinf⟩ : Split))] ≠ []) ∧
    ((∃ best cuts,
      best ∈ [((1 : ℚ), (⟨3, .ninf, .pinf⟩ : Split))].map
        (fun p => p.2.feature) ∧
      (∀ g ∈ [((1 : ℚ), (⟨3, .ninf, .pinf⟩ : Split))].map
          (fun p => p.2.feature),
        (weightFor [((1 : ℚ), (⟨3, .ninf, .pinf⟩ : Split))] g : ℝ) -
            Real.logb 2
              (numCuts [((1 : ℚ), (⟨3, .ninf, .pinf⟩ : Split))] g) ≤
          (weightFor [((1 : ℚ), (⟨3, .ninf, .pinf⟩ : Split))] best : ℝ) -
            Real.logb 2
              (numCuts [((1 : ℚ), (⟨3, .ninf, .pinf⟩ : Split))] best)) ∧
      List.Pairwise (· < ·) cuts ∧
      (∀ e, e ∈ cuts ↔
        e ∈ endpointsFor [((1 : ℚ), (⟨3, .ninf, .pinf⟩ : Split))] best) ∧
      find_best_split [((1 : ℚ), (⟨3, .ninf, .pinf⟩ : Split))] =
        (cuts.zip cuts.tail).map (fun p => ⟨best, p.1, p.2⟩) ∧
      (∀ s ∈ find_best_split [((1 : ℚ), (⟨3, .ninf, .pinf⟩ : Split))],
        s.feature = best)) ∧
    (∀ ts, [((1 : ℚ), (⟨3, .ninf, .pinf⟩ : Split))] =
        get_weighted_splits (.forest ts) 1 →
      WF (.forest ts) = true →
      ∃ b, b ∈ nodeFeatures (.forest ts) ∧
        chainFrom b XVal.ninf
          (find_best_split
            [((1 : ℚ), (⟨3, .ninf, .pinf⟩ : Split))]) = true)) :=
  ⟨by simp, C7_best_split [((1 : ℚ), (⟨3, .ninf, .pinf⟩ : Split))] (by simp)⟩

/-! ## Claim C8 -/

/-- C8 (counterexample): the claim is false as stated.  `merge_buckets`
does not return for every equal-length non-empty input and bucketize
function: merging two adjacent equal (bucketized) children runs
`assert ret_splits[-1].feature == split.feature`, so on two splits
over different features with equal leaf children the call raises
`AssertionError` (modelled as `none`) and returns no lists at all. -/
theorem C8_assert_cex :
    ([(⟨0, .ninf, .fin 1⟩ : Split), ⟨1, .fin 1, .pinf⟩] : List Split).length
      = ([Node.leaf 5, Node.leaf 5] : List Node).length ∧
    merge_buckets [⟨0, .ninf, .fin 1⟩, ⟨1, .fin 1, .pinf⟩]
      [Node.leaf 5, Node.leaf 5] (some (fun v => v)) = none := by
  refine ⟨rfl, ?_⟩
  rw [merge_buckets, List.zip_cons_cons, List.zip_cons_cons,
    List.zip_nil_right, List.foldl_cons, List.foldl_cons, List.foldl_nil]
  have h1 : mergeStep (fun v => v) (some ([], []))
      (⟨0, .ninf, .fin 1⟩, Node.leaf 5)
      = some ([⟨0, .ninf, .fin 1⟩], [Node.leaf 5]) := by
    simp [mergeStep, mergeChild]
  rw [h1]
  have h2 : mergeStep (fun v => v)
      (some ([⟨0, .ninf, .fin 1⟩], [Node.leaf 5]))
      (⟨1, .fin 1, .pinf⟩, Node.leaf 5) = none := by
    rw [mergeStep]
    have heq : nodeEq (Node.leaf 5) (mergeChild (fun v => v) (Node.leaf 5))
        = true := by
      simp [mergeChild, nodeEq]
    rw [if_pos heq, if_neg]
    simp
  rw [h2]

/-- C8 (amended): the `merge_buckets` contract.  With no bucketize
function the inputs are returned unchanged.  With a bucketize
function, merging asserts that the merged splits share one feature, so
the contract holds whenever all input splits carry a single feature —
as in every call `simplify` makes: for equal-length non-empty
single-feature inputs the call succeeds and the outputs are non-empty,
of equal length, and no longer than the inputs. -/
theorem C8_merge_contract :
    (∀ (splits : List Split) (children : List Node),
      merge_buckets splits children none = some (splits, children)) ∧
    (∀ (f : ℚ → ℚ) (best : ℕ) (s0 : Split) (srest : List Split)
        (children : List Node),
      (s0 :: srest).length = children.length →
      (∀ u ∈ s0 :: srest, u.feature = best) →
      ∃ s2 ss2 c2 cs2,
        merge_buckets (s0 :: srest) children (some f)
          = some (s2 :: ss2, c2 :: cs2) ∧
        (s2 :: ss2).length = (c2 :: cs2).length ∧
        (s2 :: ss2).length ≤ (s0 :: srest).length) := by
  constructor
  · exact merge_buckets_none
  · intro f best s0 srest children hlen hfeat
    obtain ⟨s2, ss2, c2, cs2, hmb, hl1, hl2, -, -⟩ :=
      merge_buckets_spec f best s0 srest children hlen hfeat
    exact ⟨s2, ss2, c2, cs2, hmb, hl1, hl2⟩

/-! ## make_tree structure -/

theorem mkSplits_length (var : ℕ) :
    ∀ (ps : List ℚ) (prev : XVal),
      (mkSplits var prev ps).length = ps.length + 1
  | [], prev => by rw [mkSplits]; rfl
  | p :: ps, prev => by
    rw [mkSplits]
    simp [mkSplits_length var ps (XVal.fin p)]

theorem mkSplits_ne_nil (var : ℕ) (ps : List ℚ) (prev : XVal) :
    mkSplits var prev ps ≠ [] := by
  intro h
  have := congrArg List.length h
  rw [mkSplits_length] at this
  simp at this

/-- On strictly ascending cut points above the starting bound,
`mkSplits` builds a total contiguous chain. -/
theorem mkSplits_chain (var : ℕ) :
    ∀ (ps : List ℚ) (prev : XVal), prev ≠ XVal.pinf →
      List.Pairwise (· < ·) ps →
      (∀ p ∈ ps, prev < XVal.fin p) →
      chainFrom var prev (mkSplits var prev ps) = true
  | [], prev, hp, _, _ => by
    have hlt : prev < XVal.pinf := by
      cases prev with
      | ninf => simp
      | fin q => simp
      | pinf => exact absurd rfl hp
    rw [mkSplits, chainFrom]
    simp [hlt]
  | p :: ps, prev, hp, hpw, hlt => by
    have hlt0 : prev < XVal.fin p := hlt p (by simp)
    obtain ⟨hhead, hpw2⟩ := List.pairwise_cons.mp hpw
    have hrec := mkSplits_chain var ps (XVal.fin p) (by simp) hpw2
      (fun q hq => by
        simp only [XVal.fin_lt_fin]
        exact hhead q hq)
    rw [mkSplits]
    cases hm : mkSplits var (XVal.fin p) ps with
    | nil => exact absurd hm (mkSplits_ne_nil var ps (XVal.fin p))
    | cons a as =>
      rw [hm] at hrec
      rw [chainFrom]
      simp [hlt0, hrec]

/-! ## Claim C9 -/

/-- C9 (counterexample): `make_tree` enforces nothing.  Called with
unsorted cut points `[2, 1]` it happily produces a Tree whose splits
are not a sorted contiguous chain: the structural invariant fails on a
Tree produced by `make_tree`. -/
theorem C9_make_tree_cex :
    WFT (make_tree 0 [2, 1] [.leaf 0, .leaf 1, .leaf 2]) = false := by
  norm_num [make_tree, mkSplits, WFT, WFTList, chainFrom]

/-- C9 (amended): the structural invariant holds for every Tree built
by `make_tree` from strictly ascending cut points and a children list
of well-formed nodes of matching length (cut points + 1), and for
every node of the output of `simplify` on a well-formed forest (`WFT`
recursively demands the chain shape and split/child count of every
Tree occurring in the result). -/
theorem C9_invariants (var : ℕ) (cutpoints : List ℚ) (children : List Node)
    (hsort : List.Pairwise (· < ·) cutpoints)
    (hlen : children.length = cutpoints.length + 1)
    (hch : WFTList children = true) :
    WFT (make_tree var cutpoints children) = true ∧
    (∀ ts b, WF (.forest ts) = true →
      ∃ R, simplify (.forest ts) b = some R ∧ WFT R = true) := by
  constructor
  · rw [make_tree, WFT]
    simp only [Bool.and_eq_true, beq_iff_eq]
    refine ⟨⟨?_, ?_⟩, hch⟩
    · exact mkSplits_chain var cutpoints XVal.ninf (by simp) hsort
        (fun p _ => by simp)
    · rw [mkSplits_length, hlen]
  · intro ts b hWF
    obtain ⟨R, hRK, hwft, -, -⟩ :=
      simplify_sound (treeCount (.forest ts) + 1) ts b (by omega) hWF
    exact ⟨R, by rw [simplify]; exact hRK _ (by omega), hwft⟩

/-- C9 witness: the amended invariant at a concrete ascending
`make_tree` call. -/
theorem C9_invariants_witness :
    List.Pairwise (· < ·) ([1, 2] : List ℚ) ∧
    ([Node.leaf 1, Node.leaf 2, Node.leaf 3] : List Node).length
      = ([1, 2] : List ℚ).length + 1 ∧
    WFTList [Node.leaf 1, Node.leaf 2, Node.leaf 3] = true ∧
    WFT (make_tree 0 [1, 2] [Node.leaf 1, Node.leaf 2, Node.leaf 3])
      = true := by
  have h1 : List.Pairwise (· < ·) ([1, 2] : List ℚ) := by
    norm_num [List.pairwise_cons]
  have h2 : ([Node.leaf 1, Node.leaf 2, Node.leaf 3] : List Node).length
      = ([1, 2] : List ℚ).length + 1 := rfl
  have h3 : WFTList [Node.leaf 1, Node.leaf 2, Node.leaf 3] = true := by
    norm_num [WFTList, WFT]
  exact ⟨h1, h2, h3,
    (C9_invariants 0 [1, 2] [Node.leaf 1, Node.leaf 2, Node.leaf 3]
      h1 h2 h3).1⟩

/-! ## Claim C10 -/

/-- C10 (counterexample): a length mismatch is not rejected at
construction time.  `make_tree` called with one cut point and an empty
children list returns the malformed Tree (two splits, zero children)
instead of failing; the node is not well-formed, and the mismatch only
surfaces later, as the evaluator's `unexpected` error (the trailing
`NotImplementedError`) when the node is actually evaluated. -/
theorem C10_no_rejection_cex :
    make_tree 0 [1/2] [] =
      Node.tree 0 [⟨0, .ninf, .fin (1/2)⟩, ⟨0, .fin (1/2), .pinf⟩] [] ∧
    WFT (make_tree 0 [1/2] []) = false ∧
    calculate_value (make_tree 0 [1/2] []) [(0, 0)]
      = .error .unexpected := by
  refine ⟨by rw [make_tree]; rfl, ?_, ?_⟩
  · norm_num [make_tree, mkSplits, WFT, WFTList, chainFrom]
  · simp [make_tree, mkSplits, calculate_value, scanSplits, List.lookup]

/-- C10 (amended): `make_tree` performs no validation at all: for every
children list, of matching length or not, it returns the Tree node
built from the `mkSplits` chain (always `cutpoints + 1` splits) and
the children exactly as given. -/
theorem C10_make_tree_unchecked (var : ℕ) (cutpoints : List ℚ)
    (children : List Node) :
    make_tree var cutpoints children
      = Node.tree var (mkSplits var XVal.ninf cutpoints) children ∧
    (mkSplits var XVal.ninf cutpoints).length = cutpoints.length + 1 :=
  ⟨by rw [make_tree], mkSplits_length var cutpoints XVal.ninf⟩

end OneTree
